import Mathlib

/-!
A verification development for the arbitrary-precision signed integer type
`BigInt` of `src/BigInt.cpp`.  The C++ class is shallowly embedded: the limb
vector `std::vector<int64_t> num` becomes `List Int` (least-significant limb
first; `int64_t` arithmetic never overflows in the reachable states, and where
the C++ code relies on two's-complement wraparound of `int64_t` negation this
is modelled explicitly by `wrap64`), the member `bool _sign` becomes `Bool`
(`true` = non-negative), `std::string` becomes `List Char`, and the throwing
operations return `Except`/pair-with-error values.  C++ `/` and `%` on
`int64_t`/`__int128` truncate towards zero, so they are modelled by `Int.tdiv`
and `Int.tmod`.  C++ `while` loops that are not structural recursions are
embedded with an explicit fuel parameter; the fuel chosen at each call site is
proved sufficient in the lemmas below.
-/

/-- Embedding of the C++ class `BigInt`: field `num` is the limb sequence
(least-significant first), field `sign` is `_sign` (`true` = non-negative). -/
structure BigInt where
  num : List Int
  sign : Bool
  deriving DecidableEq, Repr

namespace BigInt

/-- Member constant `base = 1000000000000000000ll` (10^18), the limb radix. -/
def base : Int := 1000000000000000000

/-- Member constant `KARATSUBA_THRESHOLD = 1024`. -/
def KARATSUBA_THRESHOLD : Nat := 1024

/-- Mathematical value of a limb sequence (least-significant limb first).
This is the denotation used by all correctness statements. -/
def val : List Int → Int
  | [] => 0
  | d :: l => d + base * val l

/-- Mathematical value of a whole `BigInt` (sign applied to the magnitude). -/
def toInt (b : BigInt) : Int := if b.sign then val b.num else -val b.num

/-- Helper for `normalize`: given the limb list reversed (most-significant
first), drop leading zeros while more than one limb remains.  This is the
loop `while (num.size() > 1 && num.back() == 0) num.pop_back();`. -/
def stripMS : List Int → List Int
  | [] => []
  | x :: xs => if x = 0 ∧ xs ≠ [] then stripMS xs else x :: xs

/-- Member `normalize()`: strip most-significant zero limbs down to one limb,
and if the result is the single zero limb force `_sign = true`. -/
def normalize (b : BigInt) : BigInt :=
  let n := (stripMS b.num.reverse).reverse
  ⟨n, if n = [0] then true else b.sign⟩

/-- Member `is_zero()`: `num.size() == 1 && num[0] == 0`. -/
def isZero (b : BigInt) : Bool := b.num = [0]

/-- Member `abs()`: copy with `_sign = true` (via `set_sign(true)`). -/
def abs (b : BigInt) : BigInt := ⟨b.num, true⟩

/-- Unary `operator-`: copy, and flip the sign unless the value is zero. -/
def negB (b : BigInt) : BigInt :=
  if isZero b then b else ⟨b.num, !b.sign⟩

/-- Magnitude comparison shared by the relational operators: compare limb
counts first, then most-significant-first lexicographic comparison.  Each C++
relational operator runs exactly this size-then-limb loop over `num`, only
with different result constants; `magCmp` captures the three-way outcome and
each operator below maps it to the constants of its C++ loop. -/
def cmpMS : List Int → List Int → Ordering
  | x :: xs, y :: ys =>
    if x > y then .gt else if x < y then .lt else cmpMS xs ys
  | _, _ => .eq

/-- Size-then-lexicographic magnitude comparison on limb lists
(least-significant-first storage, compared most-significant first). -/
def magCmp (x y : List Int) : Ordering :=
  if x.length > y.length then .gt
  else if x.length < y.length then .lt
  else cmpMS x.reverse y.reverse

/-- Comparison `operator>`.  When both operands are negative the C++ code
returns `other.abs() > this->abs()`; since `abs` only sets the signs to
`true`, that call reaches the magnitude loop directly, and it is embedded
here with that single recursive step unfolded. -/
def gtB (a b : BigInt) : Bool :=
  if b.sign && !a.sign then false
  else if !b.sign && a.sign then true
  else if !a.sign then magCmp b.num a.num == Ordering.gt
  else magCmp a.num b.num == Ordering.gt

/-- Comparison `operator>=` (same shape as `gtB`; the limb loop returns
`true` when all limbs are equal). -/
def geB (a b : BigInt) : Bool :=
  if b.sign && !a.sign then false
  else if !b.sign && a.sign then true
  else if !a.sign then magCmp b.num a.num != Ordering.lt
  else magCmp a.num b.num != Ordering.lt

/-- Comparison `operator<`. -/
def ltB (a b : BigInt) : Bool :=
  if b.sign && !a.sign then true
  else if !b.sign && a.sign then false
  else if !a.sign then magCmp b.num a.num == Ordering.lt
  else magCmp a.num b.num == Ordering.lt

/-- Comparison `operator<=`. -/
def leB (a b : BigInt) : Bool :=
  if b.sign && !a.sign then true
  else if !b.sign && a.sign then false
  else if !a.sign then magCmp b.num a.num != Ordering.gt
  else magCmp a.num b.num != Ordering.gt

/-- Comparison `operator==`: different signs give `false`; equal signs give
the magnitude loop (any size or limb difference gives `false`). -/
def eqB (a b : BigInt) : Bool :=
  if b.sign && !a.sign then false
  else if !b.sign && a.sign then false
  else magCmp a.num b.num == Ordering.eq

/-- Comparison `operator!=`. -/
def neB (a b : BigInt) : Bool := !eqB a b

/-- Pad a limb list with most-significant zero limbs up to length `n`
(the `while(num.size() < n) num.push_back(0);` step of `addAbsolute`). -/
def padTo (l : List Int) (n : Nat) : List Int := l ++ List.replicate (n - l.length) 0

/-- Carry loop of `addAbsolute`: the receiver's (padded) limbs are consumed
one by one, the other operand's limbs are read with a bounds check
(`i < other.num.size() ? other.num[i] : 0`), and a final non-zero carry is
appended. -/
def addLoop : List Int → List Int → Int → List Int
  | [], _, c => if c ≠ 0 then [c] else []
  | x :: xs, ys, c =>
    let s := x + ys.headD 0 + c
    Int.tmod s base :: addLoop xs ys.tail (Int.tdiv s base)

/-- Member `addAbsolute`: magnitude addition with carry propagation. -/
def addAbsolute (a b : List Int) : List Int :=
  addLoop (padTo a (max a.length b.length)) b 0

/-- Borrow loop of `subAbsolute`: iterates over the receiver's limbs only;
a limb difference that goes negative borrows `base` from the next limb. -/
def subLoop : List Int → List Int → Int → List Int
  | [], _, _ => []
  | x :: xs, ys, borrow =>
    let d := x - ys.headD 0 - borrow
    if d < 0 then (d + base) :: subLoop xs ys.tail 1
    else d :: subLoop xs ys.tail 0

/-- Member `subAbsolute`: magnitude subtraction (caller guarantees the
receiver's magnitude is at least the operand's). -/
def subAbsolute (a b : List Int) : List Int := subLoop a b 0

/-- `operator+=` / `operator+`: equal signs add magnitudes; different signs
subtract the smaller magnitude from the larger, the result taking the sign
of the operand with the larger magnitude; always ends with `normalize()`. -/
def addB (a b : BigInt) : BigInt :=
  if a.sign == b.sign then normalize ⟨addAbsolute a.num b.num, a.sign⟩
  else if geB a.abs b.abs then normalize ⟨subAbsolute a.num b.num, a.sign⟩
  else normalize ⟨subAbsolute b.num a.num, b.sign⟩

/-- `operator-=` / `operator-`: mirror image of `addB` (the swapped branch
flips the resulting sign, `tmp._sign = !tmp._sign`). -/
def subB (a b : BigInt) : BigInt :=
  if a.sign != b.sign then normalize ⟨addAbsolute a.num b.num, a.sign⟩
  else if geB a.abs b.abs then normalize ⟨subAbsolute a.num b.num, a.sign⟩
  else normalize ⟨subAbsolute b.num a.num, !b.sign⟩

/-- Inner loop of `classic_multiply` for one limb `aI` of the first operand:
runs over the suffix of the result vector starting at position `i`, while
`j < b.num.size() || carry != 0`; limbs of `b` past its length read as `0`.
The case of an exhausted result suffix with the loop condition still true is
an out-of-bounds access in the C++ code; it is proved unreachable below
(`mulRow_spec`), and the embedding returns the empty list there. -/
def mulRow : List Int → List Int → Int → Int → List Int
  | [], _, _, _ => []
  | r :: rs, [], aI, carry =>
    if carry = 0 then r :: rs
    else
      let cur := r + carry
      Int.tmod cur base :: mulRow rs [] aI (Int.tdiv cur base)
  | r :: rs, b :: bs, aI, carry =>
    let cur := r + aI * b + carry
    Int.tmod cur base :: mulRow rs bs aI (Int.tdiv cur base)

/-- Outer loop of `classic_multiply`: one `mulRow` per limb of the first
operand, writing into the result vector at offset `i`. -/
def mulRows : List Int → List Int → List Int → Nat → List Int
  | [], _, res, _ => res
  | x :: xs, bs, res, i => mulRows xs bs (res.take i ++ mulRow (res.drop i) bs x 0) (i + 1)

/-- Member `classic_multiply`: schoolbook convolution into a result vector of
`a.num.size() + b.num.size()` zero limbs, sign `a._sign == b._sign`, then
`normalize()`. -/
def classic_multiply (a b : BigInt) : BigInt :=
  let res := mulRows a.num b.num (List.replicate (a.num.length + b.num.length) 0) 0
  normalize ⟨res, a.sign == b.sign⟩

/-- Member `higher_half`: limbs from position `m` up, sign `true`,
normalized; `{0}` if there are at most `m` limbs. -/
def higher_half (x : BigInt) (m : Nat) : BigInt :=
  if x.num.length ≤ m then ⟨[0], true⟩
  else normalize ⟨x.num.drop m, true⟩

/-- Member `lower_half`: first `m` limbs, sign `true`, normalized; the whole
limb list (not normalized) if there are at most `m` limbs. -/
def lower_half (x : BigInt) (m : Nat) : BigInt :=
  if x.num.length ≤ m then ⟨x.num, true⟩
  else normalize ⟨x.num.take m, true⟩

/-- Two's-complement wraparound of a 64-bit signed value.  The constructor
`BigInt(int64_t)` negates its argument with `x = -x`, which for `INT64_MIN`
overflows; this models the wraparound that negation actually performs. -/
def wrap64 (z : Int) : Int := (z + 2 ^ 63) % 2 ^ 64 - 2 ^ 63

/-- Limb-peeling loop of `BigInt(int64_t)`: `while(x > 0) { push x % base;
x /= base; }`.  Two limbs always suffice for a 64-bit value, so the fuel of
3 used below never runs out. -/
def i64limbsF : Nat → Int → List Int
  | 0, _ => []
  | fuel + 1, x =>
    if x > 0 then Int.tmod x base :: i64limbsF fuel (Int.tdiv x base) else []

/-- Constructor `BigInt(int64_t)`: record the sign, negate a negative
argument (with 64-bit wraparound), push a single `0` limb for zero, else
peel limbs by repeated division by `base`.  For `x = INT64_MIN` the negation
wraps back to a negative value and the peeling loop runs zero times, leaving
an empty limb vector. -/
def ofInt64 (x : Int) : BigInt :=
  let s := decide (0 ≤ x)
  let y := if x < 0 then wrap64 (-x) else x
  if y = 0 then ⟨[0], s⟩ else ⟨i64limbsF 3 y, s⟩

/-- Member `shift_left` (limb shift): prepend `m` zero limbs, except that a
zero value stays `BigInt(0)`. -/
def shift_left (x : BigInt) (m : Nat) : BigInt :=
  if isZero x then ofInt64 0
  else ⟨List.replicate m 0 ++ x.num, x.sign⟩

/-- Member `karatsuba`, embedded with a fuel parameter for the recursion
(each recursive call strictly decreases the larger operand length, so fuel
equal to that length never runs out; the fuel-exhausted branch repeats the
base case).  At or below `KARATSUBA_THRESHOLD` limbs it falls back to
`classic_multiply`; above, it splits both operands at `m = n / 2` and
recombines `z2 * base^(2m) + z1 * base^m + z0`, forcing the sign to
`x._sign == y._sign` and normalizing. -/
def karatsubaF : Nat → BigInt → BigInt → BigInt
  | 0, x, y => classic_multiply x y
  | fuel + 1, x, y =>
    let n := max x.num.length y.num.length
    if n ≤ KARATSUBA_THRESHOLD then classic_multiply x y
    else
      let m := n / 2
      let x1 := higher_half x m
      let x0 := lower_half x m
      let y1 := higher_half y m
      let y0 := lower_half y m
      let z0 := karatsubaF fuel x0 y0
      let z2 := karatsubaF fuel x1 y1
      let z1 := subB (subB (karatsubaF fuel (addB x0 x1) (addB y0 y1)) z2) z0
      let r := addB (addB (shift_left z2 (2 * m)) (shift_left z1 m)) z0
      normalize ⟨r.num, x.sign == y.sign⟩

/-- Member `karatsuba` at its natural fuel. -/
def karatsuba (x y : BigInt) : BigInt :=
  karatsubaF (max x.num.length y.num.length) x y

/-- `operator*=` / `operator*`: `karatsuba` followed by one more
`normalize()`. -/
def mulB (a b : BigInt) : BigInt := normalize (karatsuba a b)

/-- One doubling pass of `operator<<`: limb-wise `*2` with carry, appending
a final positive carry. -/
def shlPass : List Int → Int → List Int
  | [], carry => if carry > 0 then [carry] else []
  | x :: xs, carry =>
    let temp := x * 2 + carry
    Int.tmod temp base :: shlPass xs (Int.tdiv temp base)

/-- One halving pass of `operator>>`, running over the limbs reversed
(most-significant first): `current = carry * base + limb`, new limb
`current / 2`, carry `current % 2`. -/
def shrPassMS : List Int → Int → List Int
  | [], _ => []
  | x :: xs, carry =>
    let current := carry * base + x
    Int.tdiv current 2 :: shrPassMS xs (Int.tmod current 2)

/-- Non-negative-shift core of `operator<<`: zero stays `BigInt(0)`
(checked with `operator==`), otherwise `shift` doubling passes and a final
`normalize()`. -/
def shlCore (v : BigInt) (k : Nat) : BigInt :=
  if eqB v (ofInt64 0) then ofInt64 0
  else normalize ⟨(fun w => shlPass w 0)^[k] v.num, v.sign⟩

/-- Non-negative-shift core of `operator>>`. -/
def shrCore (v : BigInt) (k : Nat) : BigInt :=
  if eqB v (ofInt64 0) then ofInt64 0
  else normalize ⟨(fun w => (shrPassMS w.reverse 0).reverse)^[k] v.num, v.sign⟩

/-- `operator<<(val, shift)`: a negative shift delegates to `operator>>`. -/
def shlB (v : BigInt) (shift : Int) : BigInt :=
  if shift < 0 then shrCore v (-shift).toNat else shlCore v shift.toNat

/-- `operator>>(val, shift)`: a negative shift delegates to `operator<<`. -/
def shrB (v : BigInt) (shift : Int) : BigInt :=
  if shift < 0 then shlCore v (-shift).toNat else shrCore v shift.toNat

/-- Error kinds of the three throwing operations (`std::runtime_error` for
format and division errors, `std::overflow_error` for narrowing). -/
inductive BErr where
  | invalidFormat
  | divisionByZero
  | overflow
  deriving DecidableEq, Repr

/-- Binary-search loop of `operator/=`: `while (l <= r) { m = (l + r) >> 1;
t = divisor * m; if (t <= current) l = m + 1; else r = m - 1; }` returning
the final `r`.  The `while` loop is embedded with fuel; the call site uses
fuel 64, proved sufficient below since the interval `[0, base]` at least
halves each iteration. -/
def bsearchF : Nat → BigInt → BigInt → BigInt → BigInt → BigInt
  | 0, _, _, _, r => r
  | fuel + 1, divisor, current, l, r =>
    if leB l r then
      let m := shrB (addB l r) 1
      let t := mulB divisor m
      if leB t current then bsearchF fuel divisor current (addB m (ofInt64 1)) r
      else bsearchF fuel divisor current l (subB m (ofInt64 1))
    else r

/-- One iteration of the long-division loop of `operator/=` for one dividend
limb: prepend the limb to `current` (as its new least-significant limb) and
normalize, binary-search the largest digit `r` with `divisor * r ≤ current`,
prepend `r.num.empty() ? 0 : r.num[0]` to the quotient limbs, and subtract
`divisor * r` from `current`. -/
def divStep (divisor : BigInt) (st : BigInt × List Int) (limb : Int) : BigInt × List Int :=
  let current := normalize ⟨limb :: st.1.num, st.1.sign⟩
  let r := bsearchF 64 divisor current (ofInt64 0) (ofInt64 base)
  let digit := r.num.headD 0
  (subB current (mulB divisor r), digit :: st.2)

/-- Quotient computation of `operator/=` after the zero-divisor check:
result `0` when `|a| < |b|`, otherwise limb-at-a-time long division from the
most-significant dividend limb, the quotient limbs accumulating (prepended)
onto the initial `BigInt(0)` limb list, signed `a._sign == b._sign` and
normalized. -/
def divNZ (a b : BigInt) : BigInt :=
  let dividend := a.abs
  let divisor := b.abs
  if ltB dividend divisor then ⟨[0], true⟩
  else
    let st := dividend.num.reverse.foldl (divStep divisor) (⟨⟨[0], true⟩, [0]⟩ : BigInt × List Int)
    normalize ⟨st.2, a.sign == b.sign⟩

/-- `operator/=` as a state transformer on the receiver: a zero divisor
raises `DivisionByZero` before any mutation (the receiver keeps its old
value), otherwise the receiver becomes the quotient. -/
def divAssign (a b : BigInt) : BigInt × Option BErr :=
  if isZero b then (a, some .divisionByZero) else (divNZ a b, none)

/-- Modulo computation of `operator%=` after the zero-divisor check:
`div = *this / other; mult = div * other; *this -= mult; normalize();` —
the remainder is derived from the quotient, not recomputed. -/
def modNZ (a b : BigInt) : BigInt :=
  normalize (subB a (mulB (divNZ a b) b))

/-- `operator%=` as a state transformer on the receiver: a zero divisor
raises `DivisionByZero` before any mutation. -/
def modAssign (a b : BigInt) : BigInt × Option BErr :=
  if isZero b then (a, some .divisionByZero) else (modNZ a b, none)

/-- Member `valid_string`: non-empty, first character `'-'` or a digit,
every later character a digit.  (A lone `"-"` passes this check: the loop
starts at index 1 and never runs.) -/
def valid_string (s : List Char) : Bool :=
  match s with
  | [] => false
  | c :: rest =>
    if c ≠ '-' ∧ ('9' < c ∨ c < '0') then false
    else rest.all fun d => decide ('0' ≤ d ∧ d ≤ '9')

/-- Decimal value of a digit-character run, folded left to right exactly as
the chunk loop `x *= 10; x += s[j] - '0';` of the string constructor. -/
def decValue (cs : List Char) : Int :=
  cs.foldl (fun x c => x * 10 + ((c.toNat : Int) - 48)) 0

/-- Chunking loop of `BigInt(const std::string&)` on the reversed digit run:
each iteration takes (up to) the 18 least-significant remaining digits,
converts them most-significant-first, and pushes the limb.  Fuel is the
digit count at the call site, which cannot run out since every iteration
consumes at least one digit. -/
def parseLimbsF : Nat → List Char → List Int
  | 0, _ => []
  | _, [] => []
  | fuel + 1, rds => decValue (rds.take 18).reverse :: parseLimbsF fuel (rds.drop 18)

/-- Limb-building part of `BigInt(const std::string&)` (after
`valid_string` passed): strip an optional leading `'-'` into the sign and
chunk the digits from the least-significant end in groups of 18.  (For the
accepted string `"-"` the digit run is empty and so is the limb vector.) -/
def parseOk (s : List Char) : BigInt :=
  match s with
  | '-' :: rest => ⟨parseLimbsF rest.length rest.reverse, false⟩
  | _ => ⟨parseLimbsF s.length s.reverse, true⟩

/-- Constructor `BigInt(const std::string&)`: throws (`InvalidFormat`) when
`valid_string` fails, else builds the value. -/
def fromString (s : List Char) : Except BErr BigInt :=
  if valid_string s then .ok (parseOk s) else .error .invalidFormat

/-- Digit character of a value in `[0, 9]`. -/
def digitChar (n : Nat) : Char := Char.ofNat (48 + n)

/-- Decimal digits of a natural number, least-significant first, with fuel
(24 digits cover every value below `10^24`, far above any limb). -/
def natDigitsRevF : Nat → Nat → List Char
  | 0, _ => []
  | fuel + 1, n => if n = 0 then [] else digitChar (n % 10) :: natDigitsRevF fuel (n / 10)

/-- Decimal rendering of a natural number (as `operator<<` on an `int64_t`
renders a non-negative value). -/
def natToDec (n : Nat) : List Char :=
  if n = 0 then ['0'] else (natDigitsRevF 24 n).reverse

/-- Decimal rendering of an `int64_t` value (sign then digits). -/
def int64ToDec (x : Int) : List Char :=
  (if x < 0 then ['-'] else []) ++ natToDec x.natAbs

/-- Rendering of a non-top limb: `std::setw(18) << std::setfill('0')` pads
the decimal form on the left with `'0'` up to width 18. -/
def pad18 (x : Int) : List Char :=
  let d := int64ToDec x
  List.replicate (18 - d.length) '0' ++ d

/-- Limb-rendering loop of `to_string` (limbs given most-significant first):
the first (most-significant) limb prints bare, all others zero-padded to 18
digits; an empty limb vector prints nothing. -/
def renderLimbsMS : List Int → List Char
  | [] => []
  | top :: rest => int64ToDec top ++ (rest.map pad18).flatten

/-- Member `to_string` (also `operator std::string` and stream output): a
leading `'-'` for `_sign == false`, then the limbs most-significant first. -/
def to_string (b : BigInt) : List Char :=
  (if !b.sign then ['-'] else []) ++ renderLimbsMS b.num.reverse

/-- Failure modes of `std::stoll` that the narrowing conversion catches. -/
inductive StollErr where
  | invalidArgument
  | outOfRange
  deriving DecidableEq, Repr

/-- Model of `std::stoll(s, &pos)` on the strings `to_string` can produce
(an optional `'-'` then characters with no leading whitespace or `'+'`):
parse the optional sign and the maximal digit run; no digits is
`invalid_argument`; a value outside `int64_t` is `out_of_range`; otherwise
the value and the number of characters consumed. -/
def stoll (s : List Char) : Except StollErr (Int × Nat) :=
  let neg := s.headD ' ' = '-'
  let body := if neg then s.tail else s
  let ds := body.takeWhile fun c => decide ('0' ≤ c ∧ c ≤ '9')
  if ds = [] then .error .invalidArgument
  else
    let v : Int := (if neg then -1 else 1) * decValue ds
    if v < -(2 ^ 63) ∨ 2 ^ 63 - 1 < v then .error .outOfRange
    else .ok (v, (if neg then 1 else 0) + ds.length)

/-- `explicit operator int64_t`: render to a string, run `stoll`, and map
every failure — `out_of_range`, `invalid_argument`, or not consuming the
whole string — to an `Overflow` error. -/
def toInt64 (b : BigInt) : Except BErr Int :=
  let s := to_string b
  match stoll s with
  | .ok (v, pos) => if pos ≠ s.length then .error .overflow else .ok v
  | .error _ => .error .overflow

/-- Limbs all lie in `[0, base)` (representation invariant 3). -/
def LimbsOk (l : List Int) : Prop := ∀ x ∈ l, 0 ≤ x ∧ x < base

/-- The limb list is non-empty and has no most-significant zero limb unless
it is the single zero limb (representation invariants 1 and 2). -/
def Canonical (l : List Int) : Prop := l ≠ [] ∧ (l.getLast? = some 0 → l = [0])

/-- Full representation invariant of a `BigInt` value, including that zero
is never negative. -/
def Inv (b : BigInt) : Prop :=
  LimbsOk b.num ∧ Canonical b.num ∧ (b.num = [0] → b.sign = true)

/-- A canonical digit run: non-empty, all digits, no leading zero unless it
is exactly `"0"`. -/
def canonDigits (l : List Char) : Prop :=
  (∀ c ∈ l, '0' ≤ c ∧ c ≤ '9') ∧ l ≠ [] ∧ (l.headD '0' = '0' → l = ['0'])

/-- A canonical decimal string in the sense of the round-trip property:
optional leading `'-'`, canonical digit run, and not `"-0"`. -/
def CanonDecStr (s : List Char) : Prop :=
  if s.headD ' ' = '-' then canonDigits s.tail ∧ s.tail ≠ ['0'] else canonDigits s

instance (l : List Int) : Decidable (LimbsOk l) := by
  unfold LimbsOk; infer_instance

instance (l : List Int) : Decidable (Canonical l) := by
  unfold Canonical; infer_instance

instance (b : BigInt) : Decidable (Inv b) := by
  unfold Inv; infer_instance

instance (l : List Char) : Decidable (canonDigits l) := by
  unfold canonDigits; infer_instance

instance (s : List Char) : Decidable (CanonDecStr s) := by
  unfold CanonDecStr; infer_instance

/-- The decimal-string grammar as the specification words it: an optional
single leading `'-'`, then at least one character, all ASCII digits.  This
is the stated acceptance condition of the string constructor, written from
the specification for comparison with the source's `valid_string`. -/
def specGrammar (s : List Char) : Bool :=
  let body := if s.headD ' ' = '-' then s.tail else s
  !body.isEmpty && body.all fun d => decide ('0' ≤ d ∧ d ≤ '9')

/-! ### Basic facts about `base`, `val` and the limb predicates -/

theorem base_pos : (0 : Int) < base := by norm_num [base]

theorem one_lt_base : (1 : Int) < base := by norm_num [base]

theorem val_nil : val [] = 0 := rfl

theorem val_cons (d : Int) (l : List Int) : val (d :: l) = d + base * val l := rfl

theorem val_append (l₁ l₂ : List Int) :
    val (l₁ ++ l₂) = val l₁ + base ^ l₁.length * val l₂ := by
  induction l₁ with
  | nil => simp [val]
  | cons d l ih =>
    simp only [List.cons_append, val_cons, ih, List.length_cons]
    ring

theorem val_replicate_zero (n : Nat) : val (List.replicate n 0) = 0 := by
  induction n with
  | zero => rfl
  | succ k ih => simp [List.replicate_succ, val_cons, ih]

theorem LimbsOk.nil : LimbsOk [] := by intro x hx; cases hx

theorem LimbsOk.cons_iff {d : Int} {l : List Int} :
    LimbsOk (d :: l) ↔ (0 ≤ d ∧ d < base) ∧ LimbsOk l := by
  constructor
  · intro h
    exact ⟨h d (List.mem_cons_self _ _), fun x hx => h x (List.mem_cons_of_mem _ hx)⟩
  · rintro ⟨hd, hl⟩ x hx
    rcases List.mem_cons.mp hx with h | h
    · exact h ▸ hd
    · exact hl x h

theorem LimbsOk.of_sub {l₁ l₂ : List Int} (h : LimbsOk l₂) (hs : ∀ x ∈ l₁, x ∈ l₂) :
    LimbsOk l₁ := fun x hx => h x (hs x hx)

theorem LimbsOk.reverse {l : List Int} (h : LimbsOk l) : LimbsOk l.reverse :=
  h.of_sub (by intro x hx; simpa using hx)

theorem val_nonneg {l : List Int} (h : LimbsOk l) : 0 ≤ val l := by
  induction l with
  | nil => simp [val]
  | cons d t ih =>
    rcases LimbsOk.cons_iff.mp h with ⟨⟨hd, _⟩, ht⟩
    have := ih ht
    have := base_pos
    simp only [val_cons]
    nlinarith

theorem val_lt {l : List Int} (h : LimbsOk l) : val l < base ^ l.length := by
  induction l with
  | nil => simp [val]
  | cons d t ih =>
    rcases LimbsOk.cons_iff.mp h with ⟨⟨_, hd⟩, ht⟩
    have h1 := ih ht
    have h2 := base_pos
    simp only [val_cons, List.length_cons, pow_succ]
    nlinarith

theorem val_eq_zero_all_zero {l : List Int} (h : LimbsOk l) (hv : val l = 0) :
    ∀ x ∈ l, x = 0 := by
  induction l with
  | nil => intro x hx; cases hx
  | cons d t ih =>
    rcases LimbsOk.cons_iff.mp h with ⟨⟨hd0, _⟩, ht⟩
    have htv : 0 ≤ val t := val_nonneg ht
    have hb := base_pos
    simp only [val_cons] at hv
    have hd : d = 0 := by nlinarith
    have htz : val t = 0 := by
      rw [hd] at hv
      have : base * val t = 0 := by linarith
      rcases mul_eq_zero.mp this with h | h
      · exact absurd h (by linarith)
      · exact h
    intro x hx
    rcases List.mem_cons.mp hx with h | h
    · exact h ▸ hd
    · exact ih ht htz x h

/-! ### `normalize` -/

theorem stripMS_ne_nil {l : List Int} (h : l ≠ []) : stripMS l ≠ [] := by
  induction l with
  | nil => exact absurd rfl h
  | cons x xs ih =>
    rw [stripMS]
    split
    · next hc => exact ih hc.2
    · simp

theorem stripMS_exists_drop (l : List Int) : ∃ k, stripMS l = l.drop k := by
  induction l with
  | nil => exact ⟨0, rfl⟩
  | cons x xs ih =>
    rw [stripMS]
    split
    · rcases ih with ⟨k, hk⟩
      exact ⟨k + 1, by simpa using hk⟩
    · exact ⟨0, rfl⟩

theorem stripMS_subset (l : List Int) : ∀ x ∈ stripMS l, x ∈ l := by
  rcases stripMS_exists_drop l with ⟨k, hk⟩
  intro x hx
  rw [hk] at hx
  exact List.mem_of_mem_drop hx

theorem val_reverse_stripMS (l : List Int) :
    val (stripMS l).reverse = val l.reverse := by
  induction l with
  | nil => rfl
  | cons x xs ih =>
    rw [stripMS]
    split
    · next hc =>
      rw [ih]
      simp [List.reverse_cons, val_append, hc.1, val_cons, val_nil]
    · rfl

theorem stripMS_head_cases {l : List Int} (h : l ≠ []) :
    stripMS l = [0] ∨ (∃ a, (stripMS l).head? = some a ∧ a ≠ 0) := by
  induction l with
  | nil => exact absurd rfl h
  | cons x xs ih =>
    rw [stripMS]
    split
    · next hc => exact ih hc.2
    · next hc =>
      by_cases hx : x = 0
      · left
        subst hx
        have hxs : xs = [] := by
          by_contra hne
          exact hc ⟨rfl, hne⟩
        rw [hxs]
      · right
        exact ⟨x, rfl, hx⟩

/-- The normalized limb list keeps the value of the original. -/
theorem normalize_val (b : BigInt) : val (normalize b).num = val b.num := by
  show val (stripMS b.num.reverse).reverse = val b.num
  rw [val_reverse_stripMS, List.reverse_reverse]

theorem normalize_sign (b : BigInt) :
    (normalize b).sign = (if (normalize b).num = [0] then true else b.sign) := rfl

/-- After `normalize`, the representation invariant holds (given in-range
limbs and a non-empty limb list). -/
theorem normalize_inv {l : List Int} (s : Bool) (hok : LimbsOk l) (hne : l ≠ []) :
    Inv (normalize ⟨l, s⟩) := by
  have hrev : l.reverse ≠ [] := by simpa using hne
  refine ⟨?_, ⟨?_, ?_⟩, ?_⟩
  · intro x hx
    apply hok
    have hx0 : x ∈ (stripMS l.reverse).reverse := hx
    have hx' : x ∈ stripMS l.reverse := List.mem_reverse.mp hx0
    have := stripMS_subset l.reverse x hx'
    simpa using this
  · show (stripMS l.reverse).reverse ≠ []
    simpa using stripMS_ne_nil hrev
  · show (stripMS l.reverse).reverse.getLast? = some 0 → (stripMS l.reverse).reverse = [0]
    rcases stripMS_head_cases hrev with hc | ⟨a, ha, hane⟩
    · rw [hc]
      intro _
      rfl
    · intro hlast
      rw [List.getLast?_reverse, ha] at hlast
      exact absurd (Option.some.inj hlast) hane
  · show (stripMS l.reverse).reverse = [0] →
      (if (stripMS l.reverse).reverse = [0] then true else s) = true
    intro h
    simp [h]

theorem normalize_toInt (l : List Int) (s : Bool) :
    toInt (normalize ⟨l, s⟩) = if s then val l else -val l := by
  have hval : val (normalize ⟨l, s⟩).num = val l := normalize_val ⟨l, s⟩
  unfold toInt
  by_cases h : (stripMS l.reverse).reverse = [0]
  · have hz : val l = 0 := by
      rw [← hval]
      show val (stripMS l.reverse).reverse = 0
      rw [h]
      rfl
    have hs : (normalize ⟨l, s⟩).sign = true := by
      show (if (stripMS l.reverse).reverse = [0] then true else s) = true
      simp [h]
    rw [hs, hval, hz]
    simp
  · have hs : (normalize ⟨l, s⟩).sign = s := by
      show (if (stripMS l.reverse).reverse = [0] then true else s) = s
      simp [h]
    rw [hs, hval]

/-- Canonical non-zero representations are bounded below by
`base ^ (length - 1)`. -/
theorem canonical_val_lower {l : List Int} (hok : LimbsOk l) (hc : Canonical l)
    (hne : l ≠ [0]) : base ^ (l.length - 1) ≤ val l := by
  rcases List.eq_nil_or_concat l with h | ⟨L, a, h⟩
  · exact absurd h hc.1
  · subst h
    rw [List.concat_eq_append] at *
    have hlast : (L ++ [a]).getLast? = some a := List.getLast?_concat L
    have hane : a ≠ 0 := by
      intro h0
      exact hne (hc.2 (h0 ▸ hlast))
    have haok := hok a (by simp)
    have ha1 : 1 ≤ a := by omega
    have hLok : LimbsOk L := hok.of_sub (by intro x hx; simp [hx])
    have hL0 : 0 ≤ val L := val_nonneg hLok
    have hbpow : (0 : Int) < base ^ L.length := pow_pos base_pos _
    rw [val_append]
    simp only [List.length_append, List.length_cons, List.length_nil]
    have : (L.length + 1 - 1) = L.length := by omega
    rw [this]
    have : val [a] = a := by simp [val_cons, val_nil]
    rw [this]
    nlinarith

theorem eq_single_zero_of_val_zero {l : List Int} (hok : LimbsOk l) (hc : Canonical l)
    (hv : val l = 0) : l = [0] := by
  by_contra hne
  have := canonical_val_lower hok hc hne
  have : (0 : Int) < base ^ (l.length - 1) := pow_pos base_pos _
  omega

theorem val_pos_of_ne_single_zero {l : List Int} (hok : LimbsOk l) (hc : Canonical l)
    (hne : l ≠ [0]) : 0 < val l := by
  have h1 := canonical_val_lower hok hc hne
  have h2 : (0 : Int) < base ^ (l.length - 1) := pow_pos base_pos _
  omega

/-- `normalize` is the identity on values that already satisfy the
invariant. -/
theorem normalize_of_inv {b : BigInt} (h : Inv b) : normalize b = b := by
  rcases h with ⟨hok, ⟨hne, hcan⟩, hsign⟩
  by_cases hz : b.num = [0]
  · have hs := hsign hz
    cases b with
    | mk n s =>
      have hz' : n = [0] := hz
      have hs' : s = true := hs
      subst hz'
      subst hs'
      decide
  · have hlast : b.num.reverse.head? ≠ some 0 := by
      rw [List.head?_reverse]
      intro hcon
      exact hz (hcan hcon)
    have h1 : stripMS b.num.reverse = b.num.reverse := by
      rcases hrev : b.num.reverse with _ | ⟨x, xs⟩
      · rfl
      · rw [stripMS]
        have hx : x ≠ 0 := by
          intro h0
          apply hlast
          rw [hrev, h0]
          rfl
        simp [hx]
    show (⟨(stripMS b.num.reverse).reverse, _⟩ : BigInt) = b
    rw [h1]
    simp only [List.reverse_reverse]
    have : (if b.num = [0] then true else b.sign) = b.sign := by simp [hz]
    rw [this]

/-! ### Comparisons -/

theorem val_reverse_cons (x : Int) (xs : List Int) :
    val (x :: xs).reverse = val xs.reverse + base ^ xs.length * x := by
  rw [List.reverse_cons, val_append]
  simp [val_cons, val_nil]

/-- Trichotomy specification of the shared most-significant-first limb
comparison loop, for same-length in-range limb lists. -/
theorem cmpMS_spec : ∀ a b : List Int, LimbsOk a → LimbsOk b → a.length = b.length →
    (cmpMS a b = .gt ∧ val b.reverse < val a.reverse) ∨
    (cmpMS a b = .lt ∧ val a.reverse < val b.reverse) ∨
    (cmpMS a b = .eq ∧ val a.reverse = val b.reverse) := by
  intro a
  induction a with
  | nil =>
    intro b _ _ hlen
    have : b = [] := List.eq_nil_of_length_eq_zero (by simpa using hlen.symm)
    subst this
    right; right
    exact ⟨rfl, rfl⟩
  | cons x xs ih =>
    intro b hok1 hok2 hlen
    cases b with
    | nil => simp at hlen
    | cons y ys =>
      have hlen' : xs.length = ys.length := by simpa using hlen
      rcases LimbsOk.cons_iff.mp hok1 with ⟨⟨hx0, hxb⟩, hxs⟩
      rcases LimbsOk.cons_iff.mp hok2 with ⟨⟨hy0, hyb⟩, hys⟩
      have hxsv0 : 0 ≤ val xs.reverse := val_nonneg hxs.reverse
      have hysv0 : 0 ≤ val ys.reverse := val_nonneg hys.reverse
      have hxsvu : val xs.reverse < base ^ xs.length := by
        have := val_lt hxs.reverse
        simpa using this
      have hysvu : val ys.reverse < base ^ ys.length := by
        have := val_lt hys.reverse
        simpa using this
      rw [val_reverse_cons, val_reverse_cons, ← hlen']
      have hB : (0 : Int) < base ^ xs.length := pow_pos base_pos _
      rw [← hlen'] at hysvu
      rcases lt_trichotomy x y with hxy | hxy | hxy
      · right; left
        constructor
        · rw [cmpMS]
          have h1 : ¬ x > y := by omega
          simp [h1, hxy]
        · have h1 : base ^ xs.length * x + base ^ xs.length ≤ base ^ xs.length * y := by
            nlinarith
          linarith
      · subst hxy
        rcases ih ys hxs hys hlen' with ⟨hc, hv⟩ | ⟨hc, hv⟩ | ⟨hc, hv⟩
        · left
          refine ⟨?_, by linarith⟩
          rw [cmpMS]; simp [hc]
        · right; left
          refine ⟨?_, by linarith⟩
          rw [cmpMS]; simp [hc]
        · right; right
          refine ⟨?_, by rw [hv]⟩
          rw [cmpMS]; simp [hc]
      · left
        constructor
        · rw [cmpMS]
          simp [hxy]
        · have h1 : base ^ xs.length * y + base ^ xs.length ≤ base ^ xs.length * x := by
            nlinarith
          linarith

/-- Magnitude comparison decides value comparison on canonical in-range
limb lists. -/
theorem magCmp_spec {x y : List Int} (hok1 : LimbsOk x) (hok2 : LimbsOk y)
    (hc1 : Canonical x) (hc2 : Canonical y) :
    (magCmp x y = .gt ↔ val y < val x) ∧
    (magCmp x y = .lt ↔ val x < val y) ∧
    (magCmp x y = .eq ↔ val x = val y) := by
  have key : (magCmp x y = .gt ∧ val y < val x) ∨
      (magCmp x y = .lt ∧ val x < val y) ∨
      (magCmp x y = .eq ∧ val x = val y) := by
    rcases lt_trichotomy x.length y.length with hl | hl | hl
    · right; left
      constructor
      · unfold magCmp
        have h1 : ¬ x.length > y.length := by omega
        simp [h1, hl]
      · have hyne : y ≠ [0] := by
          intro h
          rw [h] at hl
          have h1 : x.length < 1 := by simpa using hl
          have h2 : 0 < x.length := List.length_pos.mpr hc1.1
          omega
        have hlow : base ^ (y.length - 1) ≤ val y := canonical_val_lower hok2 hc2 hyne
        have hup : val x < base ^ x.length := val_lt hok1
        have hpow : base ^ x.length ≤ base ^ (y.length - 1) :=
          pow_le_pow_right₀ (le_of_lt one_lt_base) (by omega)
        linarith
    · unfold magCmp
      have h1 : ¬ x.length > y.length := by omega
      have h2 : ¬ x.length < y.length := by omega
      simp only [h1, h2, if_false, gt_iff_lt]
      have := cmpMS_spec x.reverse y.reverse hok1.reverse hok2.reverse (by simpa using hl)
      simpa using this
    · left
      constructor
      · unfold magCmp
        simp [hl]
      · have hxne : x ≠ [0] := by
          intro h
          rw [h] at hl
          have h1 : y.length < 1 := by simpa using hl
          have h2 : 0 < y.length := List.length_pos.mpr hc2.1
          omega
        have hlow : base ^ (x.length - 1) ≤ val x := canonical_val_lower hok1 hc1 hxne
        have hup : val y < base ^ y.length := val_lt hok2
        have hpow : base ^ y.length ≤ base ^ (x.length - 1) :=
          pow_le_pow_right₀ (le_of_lt one_lt_base) (by omega)
        linarith
  rcases key with ⟨hc, hv⟩ | ⟨hc, hv⟩ | ⟨hc, hv⟩ <;>
    refine ⟨⟨fun hp1 => ?_, fun hp2 => ?_⟩, ⟨fun hp3 => ?_, fun hp4 => ?_⟩,
      ⟨fun hp5 => ?_, fun hp6 => ?_⟩⟩ <;>
    simp_all <;> omega

theorem ordBeq_iff (o p : Ordering) : (o == p) = true ↔ o = p := by
  cases o <;> cases p <;> decide

theorem inv_sign_true_toInt {b : BigInt} (h : b.sign = true) : toInt b = val b.num := by
  unfold toInt
  simp [h]

theorem inv_sign_false_val_pos {b : BigInt} (hb : Inv b) (h : b.sign = false) :
    0 < val b.num ∧ toInt b = -val b.num := by
  rcases hb with ⟨hok, hcan, hsign⟩
  have hne : b.num ≠ [0] := by
    intro hz
    rw [hsign hz] at h
    cases h
  refine ⟨val_pos_of_ne_single_zero hok hcan hne, ?_⟩
  unfold toInt
  simp [h]

theorem val_num_nonneg {b : BigInt} (hb : Inv b) : 0 ≤ val b.num :=
  val_nonneg hb.1

/-- `operator>` decides the strict order on values. -/
theorem gtB_iff {a b : BigInt} (ha : Inv a) (hb : Inv b) :
    gtB a b = true ↔ toInt b < toInt a := by
  have hmag := magCmp_spec ha.1 hb.1 ha.2.1 hb.2.1
  have hmag' := magCmp_spec hb.1 ha.1 hb.2.1 ha.2.1
  cases hsa : a.sign <;> cases hsb : b.sign
  · rcases inv_sign_false_val_pos ha hsa with ⟨hva, hta⟩
    rcases inv_sign_false_val_pos hb hsb with ⟨hvb, htb⟩
    have h : gtB a b = (magCmp b.num a.num == Ordering.gt) := by simp [gtB, hsa, hsb]
    rw [h, ordBeq_iff, hmag'.1, hta, htb]
    omega
  · rcases inv_sign_false_val_pos ha hsa with ⟨hva, hta⟩
    have htb := inv_sign_true_toInt hsb
    have hvb := val_num_nonneg hb
    have h : gtB a b = false := by simp [gtB, hsa, hsb]
    rw [h, hta, htb]
    simp only [Bool.false_eq_true, false_iff, not_lt]
    omega
  · have hta := inv_sign_true_toInt hsa
    have hva := val_num_nonneg ha
    rcases inv_sign_false_val_pos hb hsb with ⟨hvb, htb⟩
    have h : gtB a b = true := by simp [gtB, hsa, hsb]
    rw [h, hta, htb]
    simp only [true_iff]
    omega
  · have hta := inv_sign_true_toInt hsa
    have htb := inv_sign_true_toInt hsb
    have h : gtB a b = (magCmp a.num b.num == Ordering.gt) := by simp [gtB, hsa, hsb]
    rw [h, ordBeq_iff, hmag.1, hta, htb]

theorem ordBne_iff (o p : Ordering) : (o != p) = true ↔ o ≠ p := by
  cases o <;> cases p <;> decide

/-- `operator>=` decides the non-strict order on values. -/
theorem geB_iff {a b : BigInt} (ha : Inv a) (hb : Inv b) :
    geB a b = true ↔ toInt b ≤ toInt a := by
  have hmag := magCmp_spec ha.1 hb.1 ha.2.1 hb.2.1
  have hmag' := magCmp_spec hb.1 ha.1 hb.2.1 ha.2.1
  cases hsa : a.sign <;> cases hsb : b.sign
  · rcases inv_sign_false_val_pos ha hsa with ⟨hva, hta⟩
    rcases inv_sign_false_val_pos hb hsb with ⟨hvb, htb⟩
    have h : geB a b = (magCmp b.num a.num != Ordering.lt) := by simp [geB, hsa, hsb]
    rw [h, ordBne_iff, hta, htb]
    have := hmag'.2.1
    constructor
    · intro hne
      have : ¬ val b.num < val a.num := fun hlt => hne (this.mpr hlt)
      omega
    · intro hle hc
      have := this.mp hc
      omega
  · rcases inv_sign_false_val_pos ha hsa with ⟨hva, hta⟩
    have htb := inv_sign_true_toInt hsb
    have hvb := val_num_nonneg hb
    have h : geB a b = false := by simp [geB, hsa, hsb]
    rw [h, hta, htb]
    simp only [Bool.false_eq_true, false_iff, not_le]
    omega
  · have hta := inv_sign_true_toInt hsa
    have hva := val_num_nonneg ha
    rcases inv_sign_false_val_pos hb hsb with ⟨hvb, htb⟩
    have h : geB a b = true := by simp [geB, hsa, hsb]
    rw [h, hta, htb]
    simp only [true_iff]
    omega
  · have hta := inv_sign_true_toInt hsa
    have htb := inv_sign_true_toInt hsb
    have h : geB a b = (magCmp a.num b.num != Ordering.lt) := by simp [geB, hsa, hsb]
    rw [h, ordBne_iff, hta, htb]
    have := hmag.2.1
    constructor
    · intro hne
      have : ¬ val a.num < val b.num := fun hlt => hne (this.mpr hlt)
      omega
    · intro hle hc
      have := this.mp hc
      omega

/-- `operator<` decides the strict order on values. -/
theorem ltB_iff {a b : BigInt} (ha : Inv a) (hb : Inv b) :
    ltB a b = true ↔ toInt a < toInt b := by
  have hmag := magCmp_spec ha.1 hb.1 ha.2.1 hb.2.1
  have hmag' := magCmp_spec hb.1 ha.1 hb.2.1 ha.2.1
  cases hsa : a.sign <;> cases hsb : b.sign
  · rcases inv_sign_false_val_pos ha hsa with ⟨hva, hta⟩
    rcases inv_sign_false_val_pos hb hsb with ⟨hvb, htb⟩
    have h : ltB a b = (magCmp b.num a.num == Ordering.lt) := by simp [ltB, hsa, hsb]
    rw [h, ordBeq_iff, hmag'.2.1, hta, htb]
    omega
  · rcases inv_sign_false_val_pos ha hsa with ⟨hva, hta⟩
    have htb := inv_sign_true_toInt hsb
    have hvb := val_num_nonneg hb
    have h : ltB a b = true := by simp [ltB, hsa, hsb]
    rw [h, hta, htb]
    simp only [true_iff]
    omega
  · have hta := inv_sign_true_toInt hsa
    have hva := val_num_nonneg ha
    rcases inv_sign_false_val_pos hb hsb with ⟨hvb, htb⟩
    have h : ltB a b = false := by simp [ltB, hsa, hsb]
    rw [h, hta, htb]
    simp only [Bool.false_eq_true, false_iff, not_lt]
    omega
  · have hta := inv_sign_true_toInt hsa
    have htb := inv_sign_true_toInt hsb
    have h : ltB a b = (magCmp a.num b.num == Ordering.lt) := by simp [ltB, hsa, hsb]
    rw [h, ordBeq_iff, hmag.2.1, hta, htb]

/-- `operator<=` decides the non-strict order on values. -/
theorem leB_iff {a b : BigInt} (ha : Inv a) (hb : Inv b) :
    leB a b = true ↔ toInt a ≤ toInt b := by
  have hmag := magCmp_spec ha.1 hb.1 ha.2.1 hb.2.1
  have hmag' := magCmp_spec hb.1 ha.1 hb.2.1 ha.2.1
  cases hsa : a.sign <;> cases hsb : b.sign
  · rcases inv_sign_false_val_pos ha hsa with ⟨hva, hta⟩
    rcases inv_sign_false_val_pos hb hsb with ⟨hvb, htb⟩
    have h : leB a b = (magCmp b.num a.num != Ordering.gt) := by simp [leB, hsa, hsb]
    rw [h, ordBne_iff, hta, htb]
    have := hmag'.1
    constructor
    · intro hne
      have : ¬ val a.num < val b.num := fun hlt => hne (this.mpr hlt)
      omega
    · intro hle hc
      have := this.mp hc
      omega
  · rcases inv_sign_false_val_pos ha hsa with ⟨hva, hta⟩
    have htb := inv_sign_true_toInt hsb
    have hvb := val_num_nonneg hb
    have h : leB a b = true := by simp [leB, hsa, hsb]
    rw [h, hta, htb]
    simp only [true_iff]
    omega
  · have hta := inv_sign_true_toInt hsa
    have hva := val_num_nonneg ha
    rcases inv_sign_false_val_pos hb hsb with ⟨hvb, htb⟩
    have h : leB a b = false := by simp [leB, hsa, hsb]
    rw [h, hta, htb]
    simp only [Bool.false_eq_true, false_iff, not_le]
    omega
  · have hta := inv_sign_true_toInt hsa
    have htb := inv_sign_true_toInt hsb
    have h : leB a b = (magCmp a.num b.num != Ordering.gt) := by simp [leB, hsa, hsb]
    rw [h, ordBne_iff, hta, htb]
    have := hmag.1
    constructor
    · intro hne
      have : ¬ val b.num < val a.num := fun hlt => hne (this.mpr hlt)
      omega
    · intro hle hc
      have := this.mp hc
      omega

/-- `operator==` decides equality of values. -/
theorem eqB_iff {a b : BigInt} (ha : Inv a) (hb : Inv b) :
    eqB a b = true ↔ toInt a = toInt b := by
  have hmag := magCmp_spec ha.1 hb.1 ha.2.1 hb.2.1
  cases hsa : a.sign <;> cases hsb : b.sign
  · rcases inv_sign_false_val_pos ha hsa with ⟨hva, hta⟩
    rcases inv_sign_false_val_pos hb hsb with ⟨hvb, htb⟩
    have h : eqB a b = (magCmp a.num b.num == Ordering.eq) := by simp [eqB, hsa, hsb]
    rw [h, ordBeq_iff, hmag.2.2, hta, htb]
    omega
  · rcases inv_sign_false_val_pos ha hsa with ⟨hva, hta⟩
    have htb := inv_sign_true_toInt hsb
    have hvb := val_num_nonneg hb
    have h : eqB a b = false := by simp [eqB, hsa, hsb]
    rw [h, hta, htb]
    simp only [Bool.false_eq_true, false_iff]
    omega
  · have hta := inv_sign_true_toInt hsa
    have hva := val_num_nonneg ha
    rcases inv_sign_false_val_pos hb hsb with ⟨hvb, htb⟩
    have h : eqB a b = false := by simp [eqB, hsa, hsb]
    rw [h, hta, htb]
    simp only [Bool.false_eq_true, false_iff]
    omega
  · have hta := inv_sign_true_toInt hsa
    have htb := inv_sign_true_toInt hsb
    have h : eqB a b = (magCmp a.num b.num == Ordering.eq) := by simp [eqB, hsa, hsb]
    rw [h, ordBeq_iff, hmag.2.2, hta, htb]

/-! ### Canonical uniqueness -/

theorem canonical_cons_tail {x0 : Int} {xs : List Int} (hc : Canonical (x0 :: xs))
    (hne : xs ≠ []) : Canonical xs := by
  refine ⟨hne, fun hlast => ?_⟩
  have h1 : (x0 :: xs).getLast? = some 0 := by
    rcases xs with _ | ⟨b, bs⟩
    · exact absurd rfl hne
    · rw [List.getLast?_cons_cons]
      exact hlast
  have h2 := hc.2 h1
  simp only [List.cons.injEq] at h2
  exact absurd h2.2 hne

theorem not_canonical_cons_tail_zero {y0 : Int} {ys : List Int} (hys : LimbsOk ys)
    (hne : ys ≠ []) (hv : val ys = 0) (hc : Canonical (y0 :: ys)) : False := by
  have hallz := val_eq_zero_all_zero hys hv
  have h1 : (y0 :: ys).getLast? = some 0 := by
    rcases ys with _ | ⟨b, bs⟩
    · exact absurd rfl hne
    · rw [List.getLast?_cons_cons]
      rw [List.getLast?_eq_getLast _ (by simp)]
      have hmem : (b :: bs).getLast (by simp) ∈ b :: bs := List.getLast_mem _
      have := hallz _ hmem
      rw [this]
  have h2 := hc.2 h1
  simp only [List.cons.injEq] at h2
  exact absurd h2.2 hne

theorem val_inj : ∀ x y : List Int, LimbsOk x → LimbsOk y → Canonical x → Canonical y →
    val x = val y → x = y := by
  intro x
  induction x with
  | nil =>
    intro y _ _ hc1 _ _
    exact absurd rfl hc1.1
  | cons x0 xs ih =>
    intro y hok1 hok2 hc1 hc2 hv
    cases y with
    | nil => exact absurd rfl hc2.1
    | cons y0 ys =>
      rcases LimbsOk.cons_iff.mp hok1 with ⟨⟨hx0, hxb⟩, hxs⟩
      rcases LimbsOk.cons_iff.mp hok2 with ⟨⟨hy0, hyb⟩, hys⟩
      simp only [val_cons] at hv
      have hvx0 : 0 ≤ val xs := val_nonneg hxs
      have hvy0 : 0 ≤ val ys := val_nonneg hys
      have hb := base_pos
      have hd : x0 = y0 := by
        have hk : x0 - y0 = base * (val ys - val xs) := by linarith
        rcases lt_trichotomy (val ys - val xs) 0 with h | h | h
        · have : base * (val ys - val xs) ≤ -base := by nlinarith
          omega
        · rw [h] at hk
          omega
        · have : base ≤ base * (val ys - val xs) := by nlinarith
          omega
      subst hd
      have hvt : val xs = val ys := by
        have h2 : base * val xs = base * val ys := by linarith
        exact mul_left_cancel₀ (by omega) h2
      by_cases hxsnil : xs = []
      · by_cases hysnil : ys = []
        · rw [hxsnil, hysnil]
        · exfalso
          have hv0 : val ys = 0 := by
            rw [hxsnil] at hvt
            simpa [val_nil] using hvt.symm
          exact not_canonical_cons_tail_zero hys hysnil hv0 hc2
      · by_cases hysnil : ys = []
        · exfalso
          have hv0 : val xs = 0 := by
            rw [hysnil] at hvt
            simpa [val_nil] using hvt
          exact not_canonical_cons_tail_zero hxs hxsnil hv0 hc1
        · have hcx := canonical_cons_tail hc1 hxsnil
          have hcy := canonical_cons_tail hc2 hysnil
          rw [ih ys hxs hys hcx hcy hvt]

/-- Two invariant-satisfying `BigInt`s with the same value are equal. -/
theorem toInt_inj {a b : BigInt} (ha : Inv a) (hb : Inv b) (h : toInt a = toInt b) :
    a = b := by
  have hnum : val a.num = val b.num ∧ a.sign = b.sign := by
    cases hsa : a.sign <;> cases hsb : b.sign
    · rcases inv_sign_false_val_pos ha hsa with ⟨hva, hta⟩
      rcases inv_sign_false_val_pos hb hsb with ⟨hvb, htb⟩
      rw [hta, htb] at h
      exact ⟨by omega, rfl⟩
    · rcases inv_sign_false_val_pos ha hsa with ⟨hva, hta⟩
      have htb := inv_sign_true_toInt hsb
      have hvb := val_num_nonneg hb
      rw [hta, htb] at h
      omega
    · have hta := inv_sign_true_toInt hsa
      have hva := val_num_nonneg ha
      rcases inv_sign_false_val_pos hb hsb with ⟨hvb, htb⟩
      rw [hta, htb] at h
      omega
    · have hta := inv_sign_true_toInt hsa
      have htb := inv_sign_true_toInt hsb
      rw [hta, htb] at h
      exact ⟨h, rfl⟩
  have h1 : a.num = b.num := val_inj _ _ ha.1 hb.1 ha.2.1 hb.2.1 hnum.1
  cases a with
  | mk n s =>
    cases b with
    | mk m t =>
      have hn : n = m := h1
      have hs : s = t := hnum.2
      rw [hn, hs]

/-! ### Addition and subtraction -/

theorem val_headD_tail (ys : List Int) : val ys = ys.headD 0 + base * val ys.tail := by
  cases ys with
  | nil => simp [val_nil]
  | cons y t => simp [val_cons]

theorem headD_nonneg {ys : List Int} (h : LimbsOk ys) : 0 ≤ ys.headD 0 := by
  cases ys with
  | nil => simp
  | cons y t => exact (LimbsOk.cons_iff.mp h).1.1

theorem headD_lt {ys : List Int} (h : LimbsOk ys) : ys.headD 0 < base := by
  cases ys with
  | nil => simpa using base_pos
  | cons y t => exact (LimbsOk.cons_iff.mp h).1.2

theorem LimbsOk.tail {ys : List Int} (h : LimbsOk ys) : LimbsOk ys.tail := by
  cases ys with
  | nil => exact h
  | cons y t => exact (LimbsOk.cons_iff.mp h).2

theorem tmod_tdiv_nonneg {s : Int} (hs : 0 ≤ s) :
    0 ≤ Int.tmod s base ∧ Int.tmod s base < base ∧ 0 ≤ Int.tdiv s base ∧
    Int.tmod s base + base * Int.tdiv s base = s := by
  have hb : (0 : Int) ≤ base := le_of_lt base_pos
  rw [Int.tmod_eq_emod hs hb, Int.tdiv_eq_ediv hs hb]
  refine ⟨Int.emod_nonneg s (by have := base_pos; omega), Int.emod_lt_of_pos s base_pos,
    Int.ediv_nonneg hs hb, Int.emod_add_ediv s base⟩

theorem addLoop_spec : ∀ (xs ys : List Int) (c : Int), LimbsOk xs → LimbsOk ys →
    0 ≤ c → c ≤ 1 → ys.length ≤ xs.length →
    val (addLoop xs ys c) = val xs + val ys + c ∧ LimbsOk (addLoop xs ys c) ∧
    (xs ≠ [] → addLoop xs ys c ≠ []) := by
  intro xs
  induction xs with
  | nil =>
    intro ys c _ _ hc0 hc1 hlen
    have hys : ys = [] := List.eq_nil_of_length_eq_zero (by simpa using hlen)
    subst hys
    rw [addLoop]
    by_cases hc : c = 0
    · subst hc
      refine ⟨by simp [val_nil], ?_, fun h => absurd rfl h⟩
      simp only [ne_eq, not_true_eq_false, if_neg, if_false]
      intro x hx
      simp at hx
    · have hc1' : c = 1 := by omega
      subst hc1'
      refine ⟨by simp [val_cons, val_nil], ?_, fun h => absurd rfl h⟩
      simp only [if_pos (by norm_num : (1 : Int) ≠ 0)]
      intro x hx
      simp at hx
      subst hx
      constructor <;> norm_num [base]
  | cons x xs' ih =>
    intro ys c hok1 hok2 hc0 hc1 hlen
    rcases LimbsOk.cons_iff.mp hok1 with ⟨⟨hx0, hxb⟩, hxs⟩
    have hy0 := headD_nonneg hok2
    have hyb := headD_lt hok2
    have hs0 : 0 ≤ x + ys.headD 0 + c := by omega
    rcases tmod_tdiv_nonneg hs0 with ⟨hm0, hmb, hd0, hmd⟩
    have hd1 : Int.tdiv (x + ys.headD 0 + c) base ≤ 1 := by
      by_contra hcon
      push_neg at hcon
      have : 2 * base ≤ base * Int.tdiv (x + ys.headD 0 + c) base := by nlinarith
      omega
    have hlen' : ys.tail.length ≤ xs'.length := by
      have := List.length_tail ys
      simp at hlen ⊢
      omega
    rcases ih ys.tail _ hxs hok2.tail hd0 hd1 hlen' with ⟨ihv, ihok, ihne⟩
    rw [addLoop]
    refine ⟨?_, ?_, fun _ => by simp⟩
    · show Int.tmod (x + ys.headD 0 + c) base +
        base * val (addLoop xs' ys.tail (Int.tdiv (x + ys.headD 0 + c) base)) = _
      rw [ihv, val_cons, val_headD_tail ys]
      ring_nf
      nlinarith [hmd]
    · intro z hz
      rcases List.mem_cons.mp hz with h | h
      · subst h
        exact ⟨hm0, hmb⟩
      · exact ihok z h

theorem val_padTo (l : List Int) (n : Nat) : val (padTo l n) = val l := by
  unfold padTo
  rw [val_append, val_replicate_zero]
  ring

theorem LimbsOk.padTo {l : List Int} (h : LimbsOk l) (n : Nat) : LimbsOk (BigInt.padTo l n) := by
  intro x hx
  unfold BigInt.padTo at hx
  rcases List.mem_append.mp hx with h1 | h1
  · exact h x h1
  · have := List.eq_of_mem_replicate h1
    subst this
    exact ⟨le_refl 0, base_pos⟩

theorem length_padTo (l : List Int) (n : Nat) : (padTo l n).length = max l.length n := by
  unfold padTo
  simp
  omega

theorem addAbsolute_spec {a b : List Int} (ha : LimbsOk a) (hb : LimbsOk b) :
    val (addAbsolute a b) = val a + val b ∧ LimbsOk (addAbsolute a b) ∧
    (a ≠ [] → addAbsolute a b ≠ []) := by
  unfold addAbsolute
  have hlen : b.length ≤ (padTo a (max a.length b.length)).length := by
    rw [length_padTo]
    omega
  rcases addLoop_spec _ b 0 (ha.padTo _) hb (le_refl 0) (by norm_num) hlen with ⟨hv, hok, hne⟩
  refine ⟨by rw [hv, val_padTo]; ring, hok, fun hane => ?_⟩
  apply hne
  intro hcon
  have h1 := congrArg List.length hcon
  rw [length_padTo] at h1
  have h2 : a.length = 0 := by
    simp only [List.length_nil] at h1
    omega
  exact hane (List.eq_nil_of_length_eq_zero h2)

theorem subLoop_spec : ∀ (xs ys : List Int) (borrow : Int), LimbsOk xs → LimbsOk ys →
    (borrow = 0 ∨ borrow = 1) → ys.length ≤ xs.length → val ys + borrow ≤ val xs →
    val (subLoop xs ys borrow) = val xs - val ys - borrow ∧
    LimbsOk (subLoop xs ys borrow) ∧ (subLoop xs ys borrow).length = xs.length := by
  intro xs
  induction xs with
  | nil =>
    intro ys borrow _ hok2 hbor hlen hval
    have hys : ys = [] := List.eq_nil_of_length_eq_zero (by simpa using hlen)
    subst hys
    simp [val_nil] at hval
    have hb0 : borrow = 0 := by omega
    subst hb0
    exact ⟨by simp [subLoop, val_nil], by simpa [subLoop] using LimbsOk.nil, by simp [subLoop]⟩
  | cons x xs' ih =>
    intro ys borrow hok1 hok2 hbor hlen hval
    rcases LimbsOk.cons_iff.mp hok1 with ⟨⟨hx0, hxb⟩, hxs⟩
    have hy0 := headD_nonneg hok2
    have hyb := headD_lt hok2
    have hvxs0 : 0 ≤ val xs' := val_nonneg hxs
    have hvyt0 : 0 ≤ val ys.tail := val_nonneg hok2.tail
    have hlen' : ys.tail.length ≤ xs'.length := by
      have := List.length_tail ys
      simp at hlen ⊢
      omega
    have hvals : val ys = ys.headD 0 + base * val ys.tail := val_headD_tail ys
    have hb := base_pos
    rw [subLoop]
    by_cases hd : x - ys.headD 0 - borrow < 0
    · have hrec : val ys.tail + 1 ≤ val xs' := by
        by_contra hcon
        push_neg at hcon
        have h1 : val ys.tail = val xs' ∨ val ys.tail < val xs' ∨ val xs' < val ys.tail := by omega
        have h2 : base * (val ys.tail - val xs') ≤ x - ys.headD 0 - borrow := by
          rw [val_cons] at hval
          linarith
        nlinarith
      rcases ih ys.tail 1 hxs hok2.tail (Or.inr rfl) hlen' hrec with ⟨ihv, ihok, ihlen⟩
      rw [if_pos hd]
      refine ⟨?_, ?_, by simpa using ihlen⟩
      · rw [val_cons, ihv, val_cons, hvals]
        ring
      · intro z hz
        rcases List.mem_cons.mp hz with h | h
        · subst h
          constructor <;> omega
        · exact ihok z h
    · push_neg at hd
      have hrec : val ys.tail + 0 ≤ val xs' := by
        by_contra hcon
        push_neg at hcon
        have h2 : base * (val ys.tail - val xs') ≤ x - ys.headD 0 - borrow := by
          rw [val_cons] at hval
          linarith
        have h3 : (1 : Int) ≤ val ys.tail - val xs' := by omega
        have h4 : base ≤ base * (val ys.tail - val xs') := le_mul_of_one_le_right (le_of_lt hb) h3
        omega
      rcases ih ys.tail 0 hxs hok2.tail (Or.inl rfl) hlen' hrec with ⟨ihv, ihok, ihlen⟩
      rw [if_neg (by omega)]
      refine ⟨?_, ?_, by simpa using ihlen⟩
      · rw [val_cons, ihv, val_cons, hvals]
        ring
      · intro z hz
        rcases List.mem_cons.mp hz with h | h
        · subst h
          constructor <;> omega
        · exact ihok z h

theorem abs_inv {a : BigInt} (ha : Inv a) : Inv a.abs := by
  refine ⟨ha.1, ha.2.1, fun _ => rfl⟩

theorem toInt_abs {a : BigInt} : toInt a.abs = val a.num := by
  unfold toInt abs
  simp

theorem length_le_of_val_le {a b : List Int} (hoka : LimbsOk a) (hca : Canonical a)
    (hokb : LimbsOk b) (hcb : Canonical b) (h : val b ≤ val a) : b.length ≤ a.length := by
  by_contra hcon
  push_neg at hcon
  have hbne : b ≠ [0] := by
    intro h0
    rw [h0] at hcon
    have h1 : a.length < 1 := by simpa using hcon
    have h2 := List.length_pos.mpr hca.1
    omega
  have hlow : base ^ (b.length - 1) ≤ val b := canonical_val_lower hokb hcb hbne
  have hup : val a < base ^ a.length := val_lt hoka
  have hpow : base ^ a.length ≤ base ^ (b.length - 1) :=
    pow_le_pow_right₀ (le_of_lt one_lt_base) (by omega)
  linarith

theorem subAbsolute_spec {a b : List Int} (ha : LimbsOk a) (hb : LimbsOk b)
    (hlen : b.length ≤ a.length) (hval : val b ≤ val a) :
    val (subAbsolute a b) = val a - val b ∧ LimbsOk (subAbsolute a b) ∧
    (subAbsolute a b).length = a.length := by
  have := subLoop_spec a b 0 ha hb (Or.inl rfl) hlen (by omega)
  unfold subAbsolute
  rcases this with ⟨hv, hok, hl⟩
  exact ⟨by rw [hv]; ring, hok, hl⟩

/-- `operator+` computes the sum and re-establishes the invariant. -/
theorem addB_spec {a b : BigInt} (ha : Inv a) (hb : Inv b) :
    Inv (addB a b) ∧ toInt (addB a b) = toInt a + toInt b := by
  have hane : a.num ≠ [] := ha.2.1.1
  have hbne : b.num ≠ [] := hb.2.1.1
  unfold addB
  by_cases hs : a.sign == b.sign
  · rw [if_pos hs]
    rcases addAbsolute_spec ha.1 hb.1 with ⟨hv, hok, hne⟩
    refine ⟨normalize_inv _ hok (hne hane), ?_⟩
    rw [normalize_toInt, hv]
    have hseq : a.sign = b.sign := by simpa using hs
    cases hsa : a.sign
    · rw [hsa] at hseq
      rcases inv_sign_false_val_pos ha hsa with ⟨_, hta⟩
      rcases inv_sign_false_val_pos hb hseq.symm with ⟨_, htb⟩
      simp only [Bool.false_eq_true, if_false]
      rw [hta, htb]
      ring
    · rw [hsa] at hseq
      rw [inv_sign_true_toInt hsa, inv_sign_true_toInt hseq.symm]
      simp
  · rw [if_neg hs]
    have hsne : a.sign ≠ b.sign := by simpa using hs
    by_cases hge : geB a.abs b.abs
    · rw [if_pos hge]
      have hvba : val b.num ≤ val a.num := by
        have := (geB_iff (abs_inv ha) (abs_inv hb)).mp hge
        rwa [toInt_abs, toInt_abs] at this
      have hlen : b.num.length ≤ a.num.length :=
        length_le_of_val_le ha.1 ha.2.1 hb.1 hb.2.1 hvba
      rcases subAbsolute_spec ha.1 hb.1 hlen hvba with ⟨hv, hok, hl⟩
      have hne : subAbsolute a.num b.num ≠ [] := by
        intro hcon
        have := congrArg List.length hcon
        rw [hl] at this
        exact hane (List.eq_nil_of_length_eq_zero (by simpa using this))
      refine ⟨normalize_inv _ hok hne, ?_⟩
      rw [normalize_toInt, hv]
      cases hsa : a.sign
      · have hsb : b.sign = true := by
          cases hsb : b.sign
          · rw [hsa, hsb] at hsne; exact absurd rfl hsne
          · rfl
        rcases inv_sign_false_val_pos ha hsa with ⟨_, hta⟩
        rw [inv_sign_true_toInt hsb, hta]
        simp only [Bool.false_eq_true, if_false]
        ring
      · have hsb : b.sign = false := by
          cases hsb : b.sign
          · rfl
          · rw [hsa, hsb] at hsne; exact absurd rfl hsne
        rcases inv_sign_false_val_pos hb hsb with ⟨_, htb⟩
        rw [inv_sign_true_toInt hsa, htb]
        simp
        ring
    · rw [if_neg hge]
      have hvab : val a.num < val b.num := by
        have h1 : ¬ (val b.num ≤ val a.num) := by
          intro hcon
          apply hge
          rw [geB_iff (abs_inv ha) (abs_inv hb), toInt_abs, toInt_abs]
          exact hcon
        omega
      have hlen : a.num.length ≤ b.num.length :=
        length_le_of_val_le hb.1 hb.2.1 ha.1 ha.2.1 (le_of_lt hvab)
      rcases subAbsolute_spec hb.1 ha.1 hlen (le_of_lt hvab) with ⟨hv, hok, hl⟩
      have hne : subAbsolute b.num a.num ≠ [] := by
        intro hcon
        have := congrArg List.length hcon
        rw [hl] at this
        exact hbne (List.eq_nil_of_length_eq_zero (by simpa using this))
      refine ⟨normalize_inv _ hok hne, ?_⟩
      rw [normalize_toInt, hv]
      cases hsb : b.sign
      · have hsa : a.sign = true := by
          cases hsa : a.sign
          · rw [hsa, hsb] at hsne; exact absurd rfl hsne
          · rfl
        rcases inv_sign_false_val_pos hb hsb with ⟨_, htb⟩
        rw [inv_sign_true_toInt hsa, htb]
        simp only [Bool.false_eq_true, if_false]
        ring
      · have hsa : a.sign = false := by
          cases hsa : a.sign
          · rfl
          · rw [hsa, hsb] at hsne; exact absurd rfl hsne
        rcases inv_sign_false_val_pos ha hsa with ⟨_, hta⟩
        rw [inv_sign_true_toInt hsb, hta]
        simp
        ring

/-- `operator-` computes the difference and re-establishes the invariant. -/
theorem subB_spec {a b : BigInt} (ha : Inv a) (hb : Inv b) :
    Inv (subB a b) ∧ toInt (subB a b) = toInt a - toInt b := by
  have hane : a.num ≠ [] := ha.2.1.1
  have hbne : b.num ≠ [] := hb.2.1.1
  unfold subB
  by_cases hs : a.sign != b.sign
  · rw [if_pos hs]
    rcases addAbsolute_spec ha.1 hb.1 with ⟨hv, hok, hne⟩
    refine ⟨normalize_inv _ hok (hne hane), ?_⟩
    rw [normalize_toInt, hv]
    have hsne : a.sign ≠ b.sign := by simpa using hs
    cases hsa : a.sign
    · have hsb : b.sign = true := by
        cases hsb : b.sign
        · rw [hsa, hsb] at hsne; exact absurd rfl hsne
        · rfl
      rcases inv_sign_false_val_pos ha hsa with ⟨_, hta⟩
      rw [inv_sign_true_toInt hsb, hta]
      simp only [Bool.false_eq_true, if_false]
      ring
    · have hsb : b.sign = false := by
        cases hsb : b.sign
        · rfl
        · rw [hsa, hsb] at hsne; exact absurd rfl hsne
      rcases inv_sign_false_val_pos hb hsb with ⟨_, htb⟩
      rw [inv_sign_true_toInt hsa, htb]
      simp
  · rw [if_neg hs]
    have hseq : a.sign = b.sign := by
      have := (bne_iff_ne (a := a.sign) (b := b.sign)).not_left.mp ?_
      · simpa using this
      · simpa using hs
    by_cases hge : geB a.abs b.abs
    · rw [if_pos hge]
      have hvba : val b.num ≤ val a.num := by
        have := (geB_iff (abs_inv ha) (abs_inv hb)).mp hge
        rwa [toInt_abs, toInt_abs] at this
      have hlen : b.num.length ≤ a.num.length :=
        length_le_of_val_le ha.1 ha.2.1 hb.1 hb.2.1 hvba
      rcases subAbsolute_spec ha.1 hb.1 hlen hvba with ⟨hv, hok, hl⟩
      have hne : subAbsolute a.num b.num ≠ [] := by
        intro hcon
        have := congrArg List.length hcon
        rw [hl] at this
        exact hane (List.eq_nil_of_length_eq_zero (by simpa using this))
      refine ⟨normalize_inv _ hok hne, ?_⟩
      rw [normalize_toInt, hv]
      cases hsa : a.sign
      · have hsb : b.sign = false := by rw [← hseq, hsa]
        rcases inv_sign_false_val_pos ha hsa with ⟨_, hta⟩
        rcases inv_sign_false_val_pos hb hsb with ⟨_, htb⟩
        rw [hta, htb]
        simp only [Bool.false_eq_true, if_false]
        ring
      · have hsb : b.sign = true := by rw [← hseq, hsa]
        rw [inv_sign_true_toInt hsa, inv_sign_true_toInt hsb]
        simp
    · rw [if_neg hge]
      have hvab : val a.num < val b.num := by
        have h1 : ¬ (val b.num ≤ val a.num) := by
          intro hcon
          apply hge
          rw [geB_iff (abs_inv ha) (abs_inv hb), toInt_abs, toInt_abs]
          exact hcon
        omega
      have hlen : a.num.length ≤ b.num.length :=
        length_le_of_val_le hb.1 hb.2.1 ha.1 ha.2.1 (le_of_lt hvab)
      rcases subAbsolute_spec hb.1 ha.1 hlen (le_of_lt hvab) with ⟨hv, hok, hl⟩
      have hne : subAbsolute b.num a.num ≠ [] := by
        intro hcon
        have := congrArg List.length hcon
        rw [hl] at this
        exact hbne (List.eq_nil_of_length_eq_zero (by simpa using this))
      refine ⟨normalize_inv _ hok hne, ?_⟩
      rw [normalize_toInt, hv]
      cases hsb : b.sign
      · have hsa : a.sign = false := by rw [hseq, hsb]
        rcases inv_sign_false_val_pos ha hsa with ⟨_, hta⟩
        rcases inv_sign_false_val_pos hb hsb with ⟨_, htb⟩
        rw [hta, htb]
        simp only [Bool.not_false, if_true]
        · ring
      · have hsa : a.sign = true := by rw [hseq, hsb]
        rw [inv_sign_true_toInt hsa, inv_sign_true_toInt hsb]
        simp only [Bool.not_true, Bool.false_eq_true, if_false]
        ring

theorem isZero_iff {b : BigInt} (hb : Inv b) : isZero b = true ↔ toInt b = 0 := by
  unfold isZero
  constructor
  · intro h
    have hnum : b.num = [0] := by simpa using h
    have hs := hb.2.2 hnum
    rw [inv_sign_true_toInt hs, hnum]
    simp [val_cons, val_nil]
  · intro h
    have hv : val b.num = 0 := by
      cases hsb : b.sign
      · rcases inv_sign_false_val_pos hb hsb with ⟨_, htb⟩
        rw [htb] at h
        omega
      · rwa [inv_sign_true_toInt hsb] at h
    have := eq_single_zero_of_val_zero hb.1 hb.2.1 hv
    simp [this]

/-- Unary `operator-` negates the value and keeps the invariant. -/
theorem negB_spec {b : BigInt} (hb : Inv b) :
    Inv (negB b) ∧ toInt (negB b) = -toInt b := by
  unfold negB
  by_cases hz : isZero b
  · rw [if_pos hz]
    refine ⟨hb, ?_⟩
    have := (isZero_iff hb).mp hz
    omega
  · rw [if_neg hz]
    have hnum : b.num ≠ [0] := by
      intro hcon
      apply hz
      unfold isZero
      simp [hcon]
    refine ⟨⟨hb.1, hb.2.1, fun hcon => absurd hcon hnum⟩, ?_⟩
    unfold toInt
    cases hsb : b.sign <;> simp

/-! ### Multiplication: schoolbook convolution -/

theorem lt_pow_succ_of_mul_lt {X : Int} {n : Nat} (h : base * X < base ^ (n + 1)) :
    X < base ^ n := by
  rw [pow_succ, mul_comm (base ^ n) base] at h
  exact lt_of_mul_lt_mul_left h (le_of_lt base_pos)

theorem mulRow_spec : ∀ (res bs : List Int) (aI carry : Int), LimbsOk res → LimbsOk bs →
    0 ≤ aI → 0 ≤ carry → bs.length ≤ res.length →
    val res + aI * val bs + carry < base ^ res.length →
    val (mulRow res bs aI carry) = val res + aI * val bs + carry ∧
    LimbsOk (mulRow res bs aI carry) ∧ (mulRow res bs aI carry).length = res.length := by
  intro res
  induction res with
  | nil =>
    intro bs aI carry _ hokb haI hc hlen hbound
    have hbs : bs = [] := List.eq_nil_of_length_eq_zero (by simpa using hlen)
    subst hbs
    simp only [val_nil, mul_zero, add_zero, zero_add, List.length_nil, pow_zero] at hbound
    have hc0 : carry = 0 := by omega
    subst hc0
    exact ⟨by simp [mulRow, val_nil], by simpa [mulRow] using LimbsOk.nil, by simp [mulRow]⟩
  | cons r rs ih =>
    intro bs aI carry hokr hokb haI hc hlen hbound
    rcases LimbsOk.cons_iff.mp hokr with ⟨⟨hr0, hrb⟩, hrs⟩
    cases bs with
    | nil =>
      by_cases hc0 : carry = 0
      · subst hc0
        rw [mulRow, if_pos rfl]
        exact ⟨by simp [val_nil], hokr, rfl⟩
      · rw [mulRow, if_neg hc0]
        have hcur0 : 0 ≤ r + carry := by omega
        rcases tmod_tdiv_nonneg hcur0 with ⟨hm0, hmb, hd0, hmd⟩
        have hboundrec : val rs + aI * val [] + Int.tdiv (r + carry) base < base ^ rs.length := by
          simp only [val_nil, mul_zero, add_zero]
          apply lt_pow_succ_of_mul_lt
          have h1 : base * (val rs + Int.tdiv (r + carry) base) =
              base * val rs + (r + carry) - Int.tmod (r + carry) base := by
            linarith [hmd]
          have h2 : val (r :: rs) + aI * val [] + carry < base ^ (rs.length + 1) := by
            simpa using hbound
          simp only [val_nil, mul_zero, add_zero, val_cons] at h2
          omega
        rcases ih [] aI _ hrs hokb haI hd0 (by simp) hboundrec with ⟨ihv, ihok, ihlen⟩
        refine ⟨?_, ?_, by simpa using ihlen⟩
        · show Int.tmod (r + carry) base + base * val (mulRow rs [] aI (Int.tdiv (r + carry) base)) = _
          rw [ihv]
          simp only [val_nil, mul_zero, add_zero, val_cons]
          linarith [hmd]
        · intro z hz
          rcases List.mem_cons.mp hz with h | h
          · subst h; exact ⟨hm0, hmb⟩
          · exact ihok z h
    | cons bhd bs' =>
      rcases LimbsOk.cons_iff.mp hokb with ⟨⟨hb0, hbb⟩, hbs'⟩
      have hcur0 : 0 ≤ r + aI * bhd + carry := by
        have := mul_nonneg haI hb0
        omega
      rw [mulRow]
      rcases tmod_tdiv_nonneg hcur0 with ⟨hm0, hmb, hd0, hmd⟩
      have hlen' : bs'.length ≤ rs.length := by simpa using hlen
      have hboundrec : val rs + aI * val bs' + Int.tdiv (r + aI * bhd + carry) base <
          base ^ rs.length := by
        apply lt_pow_succ_of_mul_lt
        have h2 : val (r :: rs) + aI * val (bhd :: bs') + carry < base ^ (rs.length + 1) := by
          simpa using hbound
        simp only [val_cons] at h2
        nlinarith [hmd, hm0]
      rcases ih bs' aI _ hrs hbs' haI hd0 hlen' hboundrec with ⟨ihv, ihok, ihlen⟩
      refine ⟨?_, ?_, by simpa using ihlen⟩
      · show Int.tmod (r + aI * bhd + carry) base +
          base * val (mulRow rs bs' aI (Int.tdiv (r + aI * bhd + carry) base)) = _
        rw [ihv]
        simp only [val_cons]
        nlinarith [hmd]
      · intro z hz
        rcases List.mem_cons.mp hz with h | h
        · subst h; exact ⟨hm0, hmb⟩
        · exact ihok z h

theorem mulRows_spec : ∀ (xs bs res : List Int) (i : Nat), LimbsOk xs → LimbsOk bs →
    LimbsOk res → res.length = i + xs.length + bs.length →
    val res ≤ (base ^ i - 1) * val bs →
    val (mulRows xs bs res i) = val res + base ^ i * val xs * val bs ∧
    LimbsOk (mulRows xs bs res i) ∧ (mulRows xs bs res i).length = res.length := by
  intro xs
  induction xs with
  | nil =>
    intro bs res i _ _ hokr _ _
    rw [mulRows]
    exact ⟨by simp [val_nil], hokr, rfl⟩
  | cons x xs' ih =>
    intro bs res i hokx hokb hokr hlen hbound
    rcases LimbsOk.cons_iff.mp hokx with ⟨⟨hx0, hxb⟩, hxs'⟩
    have hlenc : res.length = i + (xs'.length + 1) + bs.length := by
      rw [hlen]
      simp
    have hile : i ≤ res.length := by omega
    have htd := List.take_append_drop i res
    have htl : (res.take i).length = i := by
      rw [List.length_take]
      omega
    have hdl : (res.drop i).length = xs'.length + 1 + bs.length := by
      rw [List.length_drop]
      omega
    have hoktake : LimbsOk (res.take i) := hokr.of_sub (fun z hz => List.mem_of_mem_take hz)
    have hokdrop : LimbsOk (res.drop i) := hokr.of_sub (fun z hz => List.mem_of_mem_drop hz)
    have hvres : val res = val (res.take i) + base ^ i * val (res.drop i) := by
      conv_lhs => rw [← htd]
      rw [val_append, htl]
    have hvt0 : 0 ≤ val (res.take i) := val_nonneg hoktake
    have hvd0 : 0 ≤ val (res.drop i) := val_nonneg hokdrop
    have hvb0 : 0 ≤ val bs := val_nonneg hokb
    have hvbu : val bs < base ^ bs.length := val_lt hokb
    have hpi : (0 : Int) < base ^ i := pow_pos base_pos _
    have hdrople : val (res.drop i) ≤ val bs := by
      have h1 : base ^ i * val (res.drop i) ≤ (base ^ i - 1) * val bs := by linarith
      have h2 : (base ^ i - 1) * val bs ≤ base ^ i * val bs := by nlinarith
      have h3 : base ^ i * val (res.drop i) ≤ base ^ i * val bs := by linarith
      exact le_of_mul_le_mul_left h3 hpi
    have hrowbound : val (res.drop i) + x * val bs + 0 < base ^ (res.drop i).length := by
      have h1 : x * val bs ≤ (base - 1) * val bs := by nlinarith
      have h2 : val (res.drop i) + x * val bs ≤ base * val bs := by nlinarith
      have h3 : base * val bs < base ^ (bs.length + 1) := by
        rw [pow_succ, mul_comm (base ^ bs.length) base]
        have := mul_lt_mul_of_pos_left hvbu base_pos
        exact this
      have h4 : base ^ (bs.length + 1) ≤ base ^ (res.drop i).length :=
        pow_le_pow_right₀ (le_of_lt one_lt_base) (by omega)
      linarith
    rcases mulRow_spec (res.drop i) bs x 0 hokdrop hokb hx0 (le_refl 0) (by omega) hrowbound
      with ⟨hrv, hrok, hrlen⟩
    set mr := mulRow (res.drop i) bs x 0 with hmr
    have hok' : LimbsOk (res.take i ++ mr) := by
      intro z hz
      rcases List.mem_append.mp hz with h | h
      · exact hoktake z h
      · exact hrok z h
    have hlen2 : (res.take i ++ mr).length = res.length := by
      rw [List.length_append, htl, hrlen, List.length_drop]
      omega
    have hval2 : val (res.take i ++ mr) = val res + base ^ i * (x * val bs) := by
      rw [val_append, htl, hrv, hvres]
      ring
    have hlen3 : (res.take i ++ mr).length = (i + 1) + xs'.length + bs.length := by
      rw [hlen2, hlen]
      simp
      omega
    have hbound3 : val (res.take i ++ mr) ≤ (base ^ (i + 1) - 1) * val bs := by
      rw [hval2, pow_succ]
      have hkey : 0 ≤ (base - 1 - x) * (base ^ i * val bs) :=
        mul_nonneg (by omega) (mul_nonneg (le_of_lt hpi) hvb0)
      nlinarith [hbound, hkey]
    rcases ih bs (res.take i ++ mr) (i + 1) hxs' hokb hok' hlen3 hbound3 with ⟨ihv, ihok, ihlen⟩
    rw [mulRows]
    refine ⟨?_, ihok, by rw [ihlen, hlen2]⟩
    rw [ihv, hval2, val_cons]
    ring

/-- `classic_multiply` computes the product and re-establishes the
invariant. -/
theorem classic_multiply_spec {a b : BigInt} (ha : Inv a) (hb : Inv b) :
    Inv (classic_multiply a b) ∧
    toInt (classic_multiply a b) = toInt a * toInt b := by
  have hokrep : LimbsOk (List.replicate (a.num.length + b.num.length) (0 : Int)) := by
    intro z hz
    have := List.eq_of_mem_replicate hz
    subst this
    exact ⟨le_refl 0, base_pos⟩
  have hlenrep : (List.replicate (a.num.length + b.num.length) (0 : Int)).length =
      0 + a.num.length + b.num.length := by simp
  have hvb0 : 0 ≤ val b.num := val_num_nonneg hb
  have hbound : val (List.replicate (a.num.length + b.num.length) (0 : Int)) ≤
      (base ^ 0 - 1) * val b.num := by
    rw [val_replicate_zero]
    simp
  rcases mulRows_spec a.num b.num _ 0 ha.1 hb.1 hokrep hlenrep hbound with ⟨hv, hok, hlen⟩
  rw [val_replicate_zero] at hv
  simp only [pow_zero, one_mul, zero_add] at hv
  have hapos : 0 < a.num.length := List.length_pos.mpr ha.2.1.1
  have hne : mulRows a.num b.num (List.replicate (a.num.length + b.num.length) (0 : Int)) 0 ≠ [] := by
    intro hcon
    have h5 := congrArg List.length hcon
    rw [hlen] at h5
    simp only [List.length_replicate, List.length_nil] at h5
    omega
  unfold classic_multiply
  refine ⟨normalize_inv _ hok hne, ?_⟩
  rw [normalize_toInt, hv]
  cases hsa : a.sign <;> cases hsb : b.sign
  · rcases inv_sign_false_val_pos ha hsa with ⟨_, hta⟩
    rcases inv_sign_false_val_pos hb hsb with ⟨_, htb⟩
    rw [hta, htb]
    simp only [beq_self_eq_true, if_true]
    ring
  · rcases inv_sign_false_val_pos ha hsa with ⟨_, hta⟩
    rw [inv_sign_true_toInt hsb, hta]
    have : (false == true) = false := rfl
    rw [this]
    simp only [Bool.false_eq_true, if_false]
    ring
  · rcases inv_sign_false_val_pos hb hsb with ⟨_, htb⟩
    rw [inv_sign_true_toInt hsa, htb]
    have : (true == false) = false := rfl
    rw [this]
    simp only [Bool.false_eq_true, if_false]
    ring
  · rw [inv_sign_true_toInt hsa, inv_sign_true_toInt hsb]
    simp

/-! ### Multiplication: Karatsuba -/

theorem ofInt64_zero : ofInt64 0 = ⟨[0], true⟩ := by decide

theorem inv_zero_big : Inv (⟨[0], true⟩ : BigInt) := by decide

theorem toInt_zero_big : toInt (⟨[0], true⟩ : BigInt) = 0 := by decide

theorem val_take_drop (l : List Int) (m : Nat) :
    val l = val (l.take m) + base ^ m * val (l.drop m) := by
  by_cases h : l.length ≤ m
  · rw [List.take_of_length_le h, List.drop_eq_nil_of_le h]
    simp [val_nil]
  · push_neg at h
    conv_lhs => rw [← List.take_append_drop m l]
    rw [val_append, List.length_take]
    have : min m l.length = m := by omega
    rw [this]

theorem higher_half_spec {x : BigInt} (hx : Inv x) (m : Nat) :
    Inv (higher_half x m) ∧ toInt (higher_half x m) = val (x.num.drop m) := by
  unfold higher_half
  by_cases h : x.num.length ≤ m
  · rw [if_pos h, List.drop_eq_nil_of_le h]
    exact ⟨inv_zero_big, by rw [toInt_zero_big]; simp [val_nil]⟩
  · rw [if_neg h]
    push_neg at h
    have hok : LimbsOk (x.num.drop m) := hx.1.of_sub (fun z hz => List.mem_of_mem_drop hz)
    have hne : x.num.drop m ≠ [] := by
      intro hcon
      rw [List.drop_eq_nil_iff] at hcon
      omega
    exact ⟨normalize_inv _ hok hne, by rw [normalize_toInt]; simp⟩

theorem lower_half_spec {x : BigInt} (hx : Inv x) {m : Nat} (hm : 0 < m) :
    Inv (lower_half x m) ∧ toInt (lower_half x m) = val (x.num.take m) := by
  unfold lower_half
  by_cases h : x.num.length ≤ m
  · rw [if_pos h, List.take_of_length_le h]
    refine ⟨⟨hx.1, hx.2.1, fun _ => rfl⟩, ?_⟩
    unfold toInt
    simp
  · rw [if_neg h]
    push_neg at h
    have hok : LimbsOk (x.num.take m) := hx.1.of_sub (fun z hz => List.mem_of_mem_take hz)
    have hne : x.num.take m ≠ [] := by
      intro hcon
      have hlt := congrArg List.length hcon
      rw [List.length_take] at hlt
      simp only [List.length_nil] at hlt
      omega
    exact ⟨normalize_inv _ hok hne, by rw [normalize_toInt]; simp⟩

theorem shift_left_spec {x : BigInt} (hx : Inv x) (m : Nat) :
    Inv (shift_left x m) ∧ toInt (shift_left x m) = base ^ m * toInt x := by
  unfold shift_left
  by_cases hz : isZero x
  · rw [if_pos hz]
    rw [ofInt64_zero]
    refine ⟨inv_zero_big, ?_⟩
    rw [toInt_zero_big, (isZero_iff hx).mp hz]
    ring
  · rw [if_neg hz]
    have hnum : x.num ≠ [0] := by
      intro hcon
      exact hz (by unfold isZero; simp [hcon])
    have hne : x.num ≠ [] := hx.2.1.1
    have hok : LimbsOk (List.replicate m 0 ++ x.num) := by
      intro z hzm
      rcases List.mem_append.mp hzm with h | h
      · have := List.eq_of_mem_replicate h
        subst this
        exact ⟨le_refl 0, base_pos⟩
      · exact hx.1 z h
    have hcan : Canonical (List.replicate m 0 ++ x.num) := by
      refine ⟨by simp [hne], fun hlast => ?_⟩
      rw [List.getLast?_append_of_ne_nil _ hne] at hlast
      exact absurd (hx.2.1.2 hlast) hnum
    have hval : val (List.replicate m 0 ++ x.num) = base ^ m * val x.num := by
      rw [val_append, val_replicate_zero]
      simp
    refine ⟨⟨hok, hcan, fun hcon => ?_⟩, ?_⟩
    · exfalso
      have hlen2 := congrArg List.length hcon
      simp only [List.length_append, List.length_replicate, List.length_cons,
        List.length_nil] at hlen2
      have hxlen : 0 < x.num.length := List.length_pos.mpr hne
      have hm0 : m = 0 := by omega
      subst hm0
      apply hnum
      simpa using hcon
    · unfold toInt
      simp only
      cases hsx : x.sign
      · simp only [Bool.false_eq_true, if_false]
        rw [hval]
        ring
      · simp only [if_true]
        rw [hval]

theorem val_num_eq_toInt_of_nonneg {b : BigInt} (hb : Inv b) (h : 0 ≤ toInt b) :
    val b.num = toInt b := by
  cases hsb : b.sign
  · rcases inv_sign_false_val_pos hb hsb with ⟨hv, ht⟩
    rw [ht] at h
    omega
  · rw [inv_sign_true_toInt hsb]

theorem karatsubaF_spec : ∀ (fuel : Nat) (x y : BigInt), Inv x → Inv y →
    Inv (karatsubaF fuel x y) ∧ toInt (karatsubaF fuel x y) = toInt x * toInt y := by
  intro fuel
  induction fuel with
  | zero =>
    intro x y hx hy
    exact classic_multiply_spec hx hy
  | succ fuel ih =>
    intro x y hx hy
    rw [karatsubaF]
    by_cases hth : max x.num.length y.num.length ≤ KARATSUBA_THRESHOLD
    · rw [if_pos hth]
      exact classic_multiply_spec hx hy
    · rw [if_neg hth]
      push_neg at hth
      have hm : 0 < max x.num.length y.num.length / 2 := by
        have : (1024 : Nat) < max x.num.length y.num.length := hth
        omega
      set m := max x.num.length y.num.length / 2 with hmdef
      rcases higher_half_spec hx m with ⟨hx1, hx1v⟩
      rcases lower_half_spec hx hm with ⟨hx0, hx0v⟩
      rcases higher_half_spec hy m with ⟨hy1, hy1v⟩
      rcases lower_half_spec hy hm with ⟨hy0, hy0v⟩
      rcases ih _ _ hx0 hy0 with ⟨hz0, hz0v⟩
      rcases ih _ _ hx1 hy1 with ⟨hz2, hz2v⟩
      rcases addB_spec hx0 hx1 with ⟨hs1, hs1v⟩
      rcases addB_spec hy0 hy1 with ⟨hs2, hs2v⟩
      rcases ih _ _ hs1 hs2 with ⟨hk, hkv⟩
      rcases subB_spec hk hz2 with ⟨hsub1, hsub1v⟩
      rcases subB_spec hsub1 hz0 with ⟨hz1, hz1v⟩
      rcases shift_left_spec hz2 (2 * m) with ⟨hsh2, hsh2v⟩
      rcases shift_left_spec hz1 m with ⟨hsh1, hsh1v⟩
      rcases addB_spec hsh2 hsh1 with ⟨hadd1, hadd1v⟩
      rcases addB_spec hadd1 hz0 with ⟨hr, hrv⟩
      have hxdecomp : val x.num = val (x.num.take m) + base ^ m * val (x.num.drop m) :=
        val_take_drop x.num m
      have hydecomp : val y.num = val (y.num.take m) + base ^ m * val (y.num.drop m) :=
        val_take_drop y.num m
      have hpow2 : base ^ (2 * m) = base ^ m * base ^ m := by
        rw [two_mul, pow_add]
      have hrval : toInt (addB (addB (shift_left (karatsubaF fuel (higher_half x m)
          (higher_half y m)) (2 * m)) (shift_left (subB (subB (karatsubaF fuel
          (addB (lower_half x m) (higher_half x m)) (addB (lower_half y m)
          (higher_half y m))) (karatsubaF fuel (higher_half x m) (higher_half y m)))
          (karatsubaF fuel (lower_half x m) (lower_half y m))) m))
          (karatsubaF fuel (lower_half x m) (lower_half y m))) =
          val x.num * val y.num := by
        rw [hrv, hadd1v, hsh2v, hsh1v, hz1v, hsub1v, hkv, hs1v, hs2v, hz0v, hz2v,
          hx0v, hx1v, hy0v, hy1v, hxdecomp, hydecomp, hpow2]
        ring
      have hrnn : 0 ≤ toInt (addB (addB (shift_left (karatsubaF fuel (higher_half x m)
          (higher_half y m)) (2 * m)) (shift_left (subB (subB (karatsubaF fuel
          (addB (lower_half x m) (higher_half x m)) (addB (lower_half y m)
          (higher_half y m))) (karatsubaF fuel (higher_half x m) (higher_half y m)))
          (karatsubaF fuel (lower_half x m) (lower_half y m))) m))
          (karatsubaF fuel (lower_half x m) (lower_half y m))) := by
        rw [hrval]
        exact mul_nonneg (val_num_nonneg hx) (val_num_nonneg hy)
      have hvnum := val_num_eq_toInt_of_nonneg hr hrnn
      have hrne : (addB (addB (shift_left (karatsubaF fuel (higher_half x m)
          (higher_half y m)) (2 * m)) (shift_left (subB (subB (karatsubaF fuel
          (addB (lower_half x m) (higher_half x m)) (addB (lower_half y m)
          (higher_half y m))) (karatsubaF fuel (higher_half x m) (higher_half y m)))
          (karatsubaF fuel (lower_half x m) (lower_half y m))) m))
          (karatsubaF fuel (lower_half x m) (lower_half y m))).num ≠ [] := hr.2.1.1
      refine ⟨normalize_inv _ hr.1 hrne, ?_⟩
      rw [normalize_toInt, hvnum, hrval]
      cases hsa : x.sign <;> cases hsb : y.sign
      · rcases inv_sign_false_val_pos hx hsa with ⟨_, hta⟩
        rcases inv_sign_false_val_pos hy hsb with ⟨_, htb⟩
        rw [hta, htb]
        simp only [beq_self_eq_true, if_true]
        ring
      · rcases inv_sign_false_val_pos hx hsa with ⟨_, hta⟩
        rw [inv_sign_true_toInt hsb, hta]
        have : (false == true) = false := rfl
        rw [this]
        simp only [Bool.false_eq_true, if_false]
        ring
      · rcases inv_sign_false_val_pos hy hsb with ⟨_, htb⟩
        rw [inv_sign_true_toInt hsa, htb]
        have : (true == false) = false := rfl
        rw [this]
        simp only [Bool.false_eq_true, if_false]
        ring
      · rw [inv_sign_true_toInt hsa, inv_sign_true_toInt hsb]
        simp

/-- `karatsuba` computes the product and re-establishes the invariant, for
every fuel and hence at the natural fuel. -/
theorem karatsuba_spec {x y : BigInt} (hx : Inv x) (hy : Inv y) :
    Inv (karatsuba x y) ∧ toInt (karatsuba x y) = toInt x * toInt y :=
  karatsubaF_spec _ x y hx hy

/-- Helper form of cross-algorithm agreement: both multiplication algorithms
return the identical `BigInt`. -/
theorem karatsuba_eq_classic_aux {x y : BigInt} (hx : Inv x) (hy : Inv y) :
    karatsuba x y = classic_multiply x y := by
  rcases karatsuba_spec hx hy with ⟨h1, h2⟩
  rcases classic_multiply_spec hx hy with ⟨h3, h4⟩
  exact toInt_inj h1 h3 (by rw [h2, h4])

/-- `operator*` computes the product and re-establishes the invariant. -/
theorem mulB_spec {x y : BigInt} (hx : Inv x) (hy : Inv y) :
    Inv (mulB x y) ∧ toInt (mulB x y) = toInt x * toInt y := by
  unfold mulB
  rcases karatsuba_spec hx hy with ⟨h1, h2⟩
  rw [normalize_of_inv h1]
  exact ⟨h1, h2⟩

/-! ### Shifts -/

theorem shlPass_spec : ∀ (l : List Int) (c : Int), LimbsOk l → 0 ≤ c → c ≤ 2 →
    val (shlPass l c) = 2 * val l + c ∧ LimbsOk (shlPass l c) ∧
    (l ≠ [] → shlPass l c ≠ []) := by
  intro l
  induction l with
  | nil =>
    intro c _ hc0 hc2
    rw [shlPass]
    by_cases hc : c > 0
    · rw [if_pos hc]
      refine ⟨by simp [val_cons, val_nil], ?_, fun h => absurd rfl h⟩
      intro z hz
      simp at hz
      subst hz
      have := base_pos
      constructor
      · omega
      · norm_num [base] at *
        omega
    · rw [if_neg hc]
      have : c = 0 := by omega
      subst this
      exact ⟨by simp [val_nil], LimbsOk.nil, fun h => absurd rfl h⟩
  | cons x xs ih =>
    intro c hok hc0 hc2
    rcases LimbsOk.cons_iff.mp hok with ⟨⟨hx0, hxb⟩, hxs⟩
    have ht0 : 0 ≤ x * 2 + c := by omega
    rcases tmod_tdiv_nonneg ht0 with ⟨hm0, hmb, hd0, hmd⟩
    have hd2 : Int.tdiv (x * 2 + c) base ≤ 2 := by
      by_contra hcon
      push_neg at hcon
      have h1 : 3 * base ≤ base * Int.tdiv (x * 2 + c) base := by nlinarith
      omega
    rcases ih _ hxs hd0 hd2 with ⟨ihv, ihok, _⟩
    rw [shlPass]
    refine ⟨?_, ?_, fun _ => by simp⟩
    · show Int.tmod (x * 2 + c) base + base * val (shlPass xs (Int.tdiv (x * 2 + c) base)) = _
      rw [ihv, val_cons]
      linarith [hmd]
    · intro z hz
      rcases List.mem_cons.mp hz with h | h
      · subst h; exact ⟨hm0, hmb⟩
      · exact ihok z h

theorem shrPassMS_spec : ∀ (l : List Int) (c : Int), LimbsOk l → (c = 0 ∨ c = 1) →
    val (shrPassMS l c).reverse = (c * base ^ l.length + val l.reverse) / 2 ∧
    LimbsOk (shrPassMS l c) ∧ (shrPassMS l c).length = l.length := by
  intro l
  induction l with
  | nil =>
    intro c _ hc
    rw [shrPassMS]
    rcases hc with h | h <;> subst h
    · exact ⟨by norm_num [val_nil], LimbsOk.nil, rfl⟩
    · exact ⟨by norm_num [val_nil], LimbsOk.nil, rfl⟩
  | cons x xs ih =>
    intro c hok hc
    rcases LimbsOk.cons_iff.mp hok with ⟨⟨hx0, hxb⟩, hxs⟩
    have hb := base_pos
    have hcur0 : 0 ≤ c * base + x := by rcases hc with h | h <;> subst h <;> omega
    have hcur2 : c * base + x < 2 * base := by rcases hc with h | h <;> subst h <;> omega
    have htd : Int.tdiv (c * base + x) 2 = (c * base + x) / 2 :=
      Int.tdiv_eq_ediv hcur0 (by norm_num)
    have htm : Int.tmod (c * base + x) 2 = (c * base + x) % 2 :=
      Int.tmod_eq_emod hcur0 (by norm_num)
    have hcar : Int.tmod (c * base + x) 2 = 0 ∨ Int.tmod (c * base + x) 2 = 1 := by
      rw [htm]
      omega
    rcases ih _ hxs hcar with ⟨ihv, ihok, ihlen⟩
    rw [shrPassMS]
    refine ⟨?_, ?_, by simpa using ihlen⟩
    · rw [val_reverse_cons, ihv, ihlen]
      have hkey : c * base ^ (x :: xs).length + val (x :: xs).reverse =
          (Int.tmod (c * base + x) 2 * base ^ xs.length + val xs.reverse) +
          (base ^ xs.length * Int.tdiv (c * base + x) 2) * 2 := by
        rw [val_reverse_cons]
        have hid : Int.tmod (c * base + x) 2 + 2 * Int.tdiv (c * base + x) 2 = c * base + x :=
          Int.tmod_add_tdiv _ _
        have h2 : base ^ xs.length * (Int.tmod (c * base + x) 2 +
            2 * Int.tdiv (c * base + x) 2) = base ^ xs.length * (c * base + x) := by
          rw [hid]
        simp only [List.length_cons, pow_succ]
        ring_nf at h2 ⊢
        linarith
      rw [hkey, Int.add_mul_ediv_right _ _ (by norm_num : (2 : Int) ≠ 0)]
    · intro z hz
      rcases List.mem_cons.mp hz with h | h
      · subst h
        rw [htd]
        constructor
        · exact Int.ediv_nonneg hcur0 (by norm_num)
        · omega
      · exact ihok z h

theorem shrPassLSB_spec {l : List Int} (hok : LimbsOk l) :
    val (shrPassMS l.reverse 0).reverse = val l / 2 ∧
    LimbsOk (shrPassMS l.reverse 0).reverse ∧
    (shrPassMS l.reverse 0).reverse.length = l.length := by
  rcases shrPassMS_spec l.reverse 0 hok.reverse (Or.inl rfl) with ⟨hv, hok2, hlen⟩
  refine ⟨?_, ?_, by simpa using hlen⟩
  · rw [hv]
    simp
  · exact hok2.reverse

theorem iterate_mul2 : ∀ (k : Nat) (z : Int), (fun a => a * 2)^[k] z = z * 2 ^ k := by
  intro k
  induction k with
  | zero => intro z; simp
  | succ n ih =>
    intro z
    rw [Function.iterate_succ_apply', ih, pow_succ]
    ring

theorem iterate_tdiv2_zero : ∀ k : Nat, (fun a => Int.tdiv a 2)^[k] 0 = 0 := by
  intro k
  induction k with
  | zero => simp
  | succ n ih => rw [Function.iterate_succ_apply', ih]; simp

theorem iterate_tdiv2_neg : ∀ (k : Nat) (m : Int),
    (fun a => Int.tdiv a 2)^[k] (-m) = -((fun a => Int.tdiv a 2)^[k] m) := by
  intro k
  induction k with
  | zero => intro m; simp
  | succ n ih =>
    intro m
    rw [Function.iterate_succ_apply', Function.iterate_succ_apply', ih, Int.neg_tdiv]

theorem iterate_tdiv2_eq_ediv : ∀ (k : Nat) (m : Int), 0 ≤ m →
    (fun a => Int.tdiv a 2)^[k] m = (fun a => a / 2)^[k] m ∧
    0 ≤ (fun a => a / 2)^[k] m := by
  intro k
  induction k with
  | zero => intro m hm; simpa using hm
  | succ n ih =>
    intro m hm
    rcases ih m hm with ⟨ih1, ih2⟩
    rw [Function.iterate_succ_apply', Function.iterate_succ_apply', ih1]
    constructor
    · exact Int.tdiv_eq_ediv ih2 (by norm_num)
    · exact Int.ediv_nonneg ih2 (by norm_num)

theorem shlIter_spec : ∀ (k : Nat) (l : List Int), LimbsOk l → l ≠ [] →
    val ((fun w => shlPass w 0)^[k] l) = 2 ^ k * val l ∧
    LimbsOk ((fun w => shlPass w 0)^[k] l) ∧ (fun w => shlPass w 0)^[k] l ≠ [] := by
  intro k
  induction k with
  | zero => intro l hok hne; exact ⟨by simp, hok, hne⟩
  | succ n ih =>
    intro l hok hne
    rcases ih l hok hne with ⟨ihv, ihok, ihne⟩
    rcases shlPass_spec _ 0 ihok (le_refl 0) (by norm_num) with ⟨hv, hok2, hne2⟩
    refine ⟨?_, ?_, ?_⟩
    · simp only [Function.iterate_succ_apply']
      rw [hv, ihv, pow_succ]
      ring
    · simp only [Function.iterate_succ_apply']
      exact hok2
    · simp only [Function.iterate_succ_apply']
      exact hne2 ihne

theorem shrIter_spec : ∀ (k : Nat) (l : List Int), LimbsOk l →
    val ((fun w => (shrPassMS w.reverse 0).reverse)^[k] l) =
      (fun a => a / 2)^[k] (val l) ∧
    LimbsOk ((fun w => (shrPassMS w.reverse 0).reverse)^[k] l) ∧
    ((fun w => (shrPassMS w.reverse 0).reverse)^[k] l).length = l.length := by
  intro k
  induction k with
  | zero => intro l hok; exact ⟨rfl, hok, rfl⟩
  | succ n ih =>
    intro l hok
    rcases ih l hok with ⟨ihv, ihok, ihlen⟩
    rcases shrPassLSB_spec ihok with ⟨hv, hok2, hlen2⟩
    refine ⟨?_, ?_, ?_⟩
    · simp only [Function.iterate_succ_apply']
      rw [hv, ihv]
    · simp only [Function.iterate_succ_apply']
      exact hok2
    · simp only [Function.iterate_succ_apply']
      rw [hlen2, ihlen]

theorem eqB_zero_iff {v : BigInt} (hv : Inv v) :
    eqB v (ofInt64 0) = true ↔ toInt v = 0 := by
  rw [ofInt64_zero, eqB_iff hv inv_zero_big, toInt_zero_big]

/-- The non-negative-shift core of `operator<<` multiplies the value by 2,
`k` times. -/
theorem shlCore_spec {v : BigInt} (hv : Inv v) (k : Nat) :
    Inv (shlCore v k) ∧ toInt (shlCore v k) = (fun a => a * 2)^[k] (toInt v) := by
  unfold shlCore
  by_cases hz : eqB v (ofInt64 0) = true
  · rw [if_pos hz, ofInt64_zero]
    have h0 := (eqB_zero_iff hv).mp hz
    rw [iterate_mul2, h0, toInt_zero_big]
    exact ⟨inv_zero_big, by ring⟩
  · rw [if_neg hz]
    rcases shlIter_spec k v.num hv.1 hv.2.1.1 with ⟨hval, hok, hne⟩
    refine ⟨normalize_inv _ hok hne, ?_⟩
    rw [normalize_toInt, hval, iterate_mul2]
    cases hs : v.sign
    · rcases inv_sign_false_val_pos hv hs with ⟨_, ht⟩
      rw [ht]
      simp only [Bool.false_eq_true, if_false]
      ring
    · rw [inv_sign_true_toInt hs]
      simp only [if_true]
      ring

/-- The non-negative-shift core of `operator>>` divides the value by 2,
`k` times, truncating towards zero. -/
theorem shrCore_spec {v : BigInt} (hv : Inv v) (k : Nat) :
    Inv (shrCore v k) ∧ toInt (shrCore v k) = (fun a => Int.tdiv a 2)^[k] (toInt v) := by
  unfold shrCore
  by_cases hz : eqB v (ofInt64 0) = true
  · rw [if_pos hz, ofInt64_zero]
    have h0 := (eqB_zero_iff hv).mp hz
    rw [h0, iterate_tdiv2_zero, toInt_zero_big]
    exact ⟨inv_zero_big, rfl⟩
  · rw [if_neg hz]
    rcases shrIter_spec k v.num hv.1 with ⟨hval, hok, hlen⟩
    have hne : (fun w => (shrPassMS w.reverse 0).reverse)^[k] v.num ≠ [] := by
      intro hcon
      have := congrArg List.length hcon
      rw [hlen] at this
      exact hv.2.1.1 (List.eq_nil_of_length_eq_zero (by simpa using this))
    refine ⟨normalize_inv _ hok hne, ?_⟩
    rw [normalize_toInt, hval]
    have hv0 : 0 ≤ val v.num := val_num_nonneg hv
    rcases iterate_tdiv2_eq_ediv k (val v.num) hv0 with ⟨he, _⟩
    cases hs : v.sign
    · rcases inv_sign_false_val_pos hv hs with ⟨_, ht⟩
      rw [ht, iterate_tdiv2_neg, he]
      simp
    · rw [inv_sign_true_toInt hs, he]
      simp

/-- `operator<<` on a non-negative shift count. -/
theorem shlB_spec {v : BigInt} (hv : Inv v) {k : Int} (hk : 0 ≤ k) :
    Inv (shlB v k) ∧ toInt (shlB v k) = (fun a => a * 2)^[k.toNat] (toInt v) := by
  unfold shlB
  rw [if_neg (by omega)]
  exact shlCore_spec hv k.toNat

/-- `operator>>` on a non-negative shift count. -/
theorem shrB_spec {v : BigInt} (hv : Inv v) {k : Int} (hk : 0 ≤ k) :
    Inv (shrB v k) ∧ toInt (shrB v k) = (fun a => Int.tdiv a 2)^[k.toNat] (toInt v) := by
  unfold shrB
  rw [if_neg (by omega)]
  exact shrCore_spec hv k.toNat

/-! ### Division -/

theorem ofInt64_one : ofInt64 1 = ⟨[1], true⟩ := by decide

theorem inv_one_big : Inv (⟨[1], true⟩ : BigInt) := by decide

theorem toInt_one_big : toInt (⟨[1], true⟩ : BigInt) = 1 := by decide

theorem ofInt64_base_eq : ofInt64 base = ⟨[0, 1], true⟩ := by decide

theorem inv_base_big : Inv (⟨[0, 1], true⟩ : BigInt) := by decide

theorem toInt_base_big : toInt (⟨[0, 1], true⟩ : BigInt) = base := by decide

theorem ediv_eq_of_bounds {D q c : Int} (hD : 0 < D) (h1 : D * q ≤ c)
    (h2 : c < D * (q + 1)) : c / D = q := by
  have ha : q ≤ c / D := (Int.le_ediv_iff_mul_le hD).mpr (by linarith)
  have hb : c / D < q + 1 := (Int.ediv_lt_iff_lt_mul hD).mpr (by linarith)
  omega

theorem sign_true_of_nonneg {b : BigInt} (hb : Inv b) (h : 0 ≤ toInt b) :
    b.sign = true := by
  cases hs : b.sign
  · rcases inv_sign_false_val_pos hb hs with ⟨hv, ht⟩
    rw [ht] at h
    omega
  · rfl

theorem single_limb_of_lt_base {r : BigInt} (hr : Inv r) (h0 : 0 ≤ toInt r)
    (hb : toInt r < base) : r.num = [toInt r] := by
  have hs := sign_true_of_nonneg hr h0
  have hval : val r.num = toInt r := (inv_sign_true_toInt hs).symm
  have hlen : r.num.length = 1 := by
    by_contra hcon
    have h1 : 0 < r.num.length := List.length_pos.mpr hr.2.1.1
    have h2 : 2 ≤ r.num.length := by omega
    have hne : r.num ≠ [0] := by
      intro hz
      rw [hz] at h2
      simp at h2
    have := canonical_val_lower hr.1 hr.2.1 hne
    have hpow : base ^ 1 ≤ base ^ (r.num.length - 1) :=
      pow_le_pow_right₀ (le_of_lt one_lt_base) (by omega)
    simp only [pow_one] at hpow
    omega
  rcases hnum : r.num with _ | ⟨x, xs⟩
  · rw [hnum] at hlen
    simp at hlen
  · rw [hnum] at hlen
    simp at hlen
    subst hlen
    rw [hnum] at hval
    simp [val_cons, val_nil] at hval
    rw [hval]

theorem normalize_sign_true (l : List Int) :
    (normalize ⟨l, true⟩).sign = true := by
  show (if (stripMS l.reverse).reverse = [0] then true else true) = true
  split <;> rfl

/-- The binary-search loop of the division engine finds the unique `q` with
`D * q ≤ C < D * (q + 1)`, given a bracketed monotone search interval and
enough fuel for the interval to shrink to nothing. -/
theorem bsearchF_spec : ∀ (fuel : Nat) (D C l r : BigInt), Inv D → Inv C →
    Inv l → Inv r → 0 < toInt D →
    0 ≤ toInt C → 0 ≤ toInt l → toInt l ≤ toInt r + 1 →
    toInt D * (toInt l - 1) ≤ toInt C →
    toInt C < toInt D * (toInt r + 1) →
    toInt r + 1 - toInt l < 2 ^ fuel →
    Inv (bsearchF fuel D C l r) ∧
    toInt D * toInt (bsearchF fuel D C l r) ≤ toInt C ∧
    toInt C < toInt D * (toInt (bsearchF fuel D C l r) + 1) := by
  intro fuel
  induction fuel with
  | zero =>
    intro D C l r hD hC hl hr hDpos hC0 hl0 hlr hlo hhi hfuel
    simp only [pow_zero] at hfuel
    have hexit : toInt l = toInt r + 1 := by omega
    rw [bsearchF]
    refine ⟨hr, ?_, hhi⟩
    have : toInt D * (toInt l - 1) = toInt D * toInt r := by rw [hexit]; ring
    linarith [hlo, this.symm.le]
  | succ fuel ih =>
    intro D C l r hD hC hl hr hDpos hC0 hl0 hlr hlo hhi hfuel
    rw [bsearchF]
    by_cases hle : leB l r = true
    · rw [if_pos hle]
      have hller : toInt l ≤ toInt r := (leB_iff hl hr).mp hle
      rcases addB_spec hl hr with ⟨hadd, haddv⟩
      have hadd0 : 0 ≤ toInt (addB l r) := by rw [haddv]; omega
      rcases shrB_spec hadd (by norm_num : (0 : Int) ≤ 1) with ⟨hm, hmv⟩
      have hmval : toInt (shrB (addB l r) 1) = (toInt l + toInt r) / 2 := by
        rw [hmv, haddv]
        have h1 : ((1 : Int).toNat) = 1 := rfl
        rw [h1, Function.iterate_one]
        exact Int.tdiv_eq_ediv (by omega) (by norm_num)
      have hml : toInt l ≤ toInt (shrB (addB l r) 1) := by rw [hmval]; omega
      have hmr : toInt (shrB (addB l r) 1) ≤ toInt r := by rw [hmval]; omega
      have hm0 : 0 ≤ toInt (shrB (addB l r) 1) := by omega
      rcases mulB_spec hD hm with ⟨ht, htv⟩
      have hp2 : (2 : Int) ^ (fuel + 1) = 2 * 2 ^ fuel := by ring
      by_cases hcmp : leB (mulB D (shrB (addB l r) 1)) C = true
      · rw [if_pos hcmp]
        have hdm : toInt D * toInt (shrB (addB l r) 1) ≤ toInt C := by
          have := (leB_iff ht hC).mp hcmp
          rwa [htv] at this
        rcases addB_spec hm inv_one_big with ⟨hl', hl'v⟩
        rw [toInt_one_big] at hl'v
        have happ := ih D C (addB (shrB (addB l r) 1) ⟨[1], true⟩) r hD hC hl' hr hDpos hC0
          (by rw [hl'v]; omega) (by rw [hl'v]; omega)
          (by rw [hl'v]; have : toInt (shrB (addB l r) 1) + 1 - 1 = toInt (shrB (addB l r) 1) := by ring
              rw [this]; exact hdm)
          hhi
          (by rw [hl'v, hmval] at *; omega)
        rw [ofInt64_one]
        exact happ
      · rw [if_neg hcmp]
        have hdm : toInt C < toInt D * toInt (shrB (addB l r) 1) := by
          have h1 : ¬ (toInt (mulB D (shrB (addB l r) 1)) ≤ toInt C) := by
            intro hcon
            exact hcmp ((leB_iff ht hC).mpr hcon)
          rw [htv] at h1
          omega
        rcases subB_spec hm inv_one_big with ⟨hr', hr'v⟩
        rw [toInt_one_big] at hr'v
        have happ := ih D C l (subB (shrB (addB l r) 1) ⟨[1], true⟩) hD hC hl hr' hDpos hC0
          hl0 (by rw [hr'v]; omega) hlo
          (by rw [hr'v]
              have : toInt (shrB (addB l r) 1) - 1 + 1 = toInt (shrB (addB l r) 1) := by ring
              rw [this]; exact hdm)
          (by rw [hr'v, hmval] at *; omega)
        rw [ofInt64_one]
        exact happ
    · rw [if_neg hle]
      have hgt : toInt r < toInt l := by
        have h1 : ¬ (toInt l ≤ toInt r) := by
          intro hcon
          exact hle ((leB_iff hl hr).mpr hcon)
        omega
      have hexit : toInt l = toInt r + 1 := by omega
      refine ⟨hr, ?_, hhi⟩
      have : toInt D * (toInt l - 1) = toInt D * toInt r := by rw [hexit]; ring
      linarith [hlo, this.symm.le]

/-- One iteration of the long-division limb loop: starting from remainder
`cur` and quotient limbs `q` representing the processed dividend prefix of
value `valD * val q + toInt cur`, after absorbing one more limb the state
represents `(valD * val q + toInt cur) * base + limb`, with the remainder
again in `[0, valD)`. -/
theorem divStep_spec {D cur : BigInt} {q : List Int} {limb : Int}
    (hD : Inv D) (hDs : D.sign = true) (hDpos : 0 < val D.num)
    (hcur : Inv cur) (hcs : cur.sign = true) (hc0 : 0 ≤ toInt cur)
    (hcb : toInt cur < val D.num)
    (hq : LimbsOk q)
    (hl0 : 0 ≤ limb) (hlb : limb < base) :
    Inv (divStep D (cur, q) limb).1 ∧ (divStep D (cur, q) limb).1.sign = true ∧
    0 ≤ toInt (divStep D (cur, q) limb).1 ∧
    toInt (divStep D (cur, q) limb).1 < val D.num ∧
    LimbsOk (divStep D (cur, q) limb).2 ∧ (divStep D (cur, q) limb).2 ≠ [] ∧
    (divStep D (cur, q) limb).2.length = q.length + 1 ∧
    val D.num * val (divStep D (cur, q) limb).2 + toInt (divStep D (cur, q) limb).1 =
      (val D.num * val q + toInt cur) * base + limb := by
  have htD : toInt D = val D.num := inv_sign_true_toInt hDs
  have hokLC : LimbsOk (limb :: cur.num) :=
    LimbsOk.cons_iff.mpr ⟨⟨hl0, hlb⟩, hcur.1⟩
  have hCinv : Inv (normalize ⟨limb :: cur.num, cur.sign⟩) :=
    normalize_inv _ hokLC (by simp)
  have htC : toInt (normalize ⟨limb :: cur.num, cur.sign⟩) = limb + base * toInt cur := by
    rw [normalize_toInt, hcs, inv_sign_true_toInt hcs]
    simp [val_cons]
  have hC0 : 0 ≤ toInt (normalize ⟨limb :: cur.num, cur.sign⟩) := by
    rw [htC]
    have := base_pos
    nlinarith
  have hCb : toInt (normalize ⟨limb :: cur.num, cur.sign⟩) < val D.num * base := by
    rw [htC]
    have hb := base_pos
    nlinarith
  have hsearch := bsearchF_spec 64 D (normalize ⟨limb :: cur.num, cur.sign⟩)
    ⟨[0], true⟩ ⟨[0, 1], true⟩ hD hCinv inv_zero_big inv_base_big
    (by rw [htD]; exact hDpos) hC0
    (by rw [toInt_zero_big]) (by rw [toInt_zero_big, toInt_base_big]; have := base_pos; omega)
    (by rw [toInt_zero_big, htD]
        have : val D.num * (0 - 1) = -val D.num := by ring
        rw [this]
        omega)
    (by rw [toInt_base_big, htD]
        have hb := base_pos
        nlinarith)
    (by rw [toInt_zero_big, toInt_base_big]
        norm_num [base])
  rcases hsearch with ⟨hRinv, hRlo, hRhi⟩
  rw [htD] at hRlo hRhi
  have hR0 : 0 ≤ toInt (bsearchF 64 D (normalize ⟨limb :: cur.num, cur.sign⟩)
      ⟨[0], true⟩ ⟨[0, 1], true⟩) := by
    by_contra hcon
    push_neg at hcon
    have h1 : toInt (bsearchF 64 D (normalize ⟨limb :: cur.num, cur.sign⟩)
        ⟨[0], true⟩ ⟨[0, 1], true⟩) + 1 ≤ 0 := by omega
    nlinarith
  have hRb : toInt (bsearchF 64 D (normalize ⟨limb :: cur.num, cur.sign⟩)
      ⟨[0], true⟩ ⟨[0, 1], true⟩) < base := by
    have h1 : val D.num * toInt (bsearchF 64 D (normalize ⟨limb :: cur.num, cur.sign⟩)
        ⟨[0], true⟩ ⟨[0, 1], true⟩) < val D.num * base := by linarith
    exact lt_of_mul_lt_mul_left h1 (le_of_lt hDpos)
  have hRnum := single_limb_of_lt_base hRinv hR0 hRb
  rcases mulB_spec hD hRinv with ⟨hMinv, hMv⟩
  rcases subB_spec hCinv hMinv with ⟨hSinv, hSv⟩
  have hS0 : 0 ≤ toInt (subB (normalize ⟨limb :: cur.num, cur.sign⟩)
      (mulB D (bsearchF 64 D (normalize ⟨limb :: cur.num, cur.sign⟩)
        ⟨[0], true⟩ ⟨[0, 1], true⟩))) := by
    rw [hSv, hMv, htD]
    omega
  have hSb : toInt (subB (normalize ⟨limb :: cur.num, cur.sign⟩)
      (mulB D (bsearchF 64 D (normalize ⟨limb :: cur.num, cur.sign⟩)
        ⟨[0], true⟩ ⟨[0, 1], true⟩))) < val D.num := by
    rw [hSv, hMv, htD]
    nlinarith
  have hstep : divStep D (cur, q) limb =
      (subB (normalize ⟨limb :: cur.num, cur.sign⟩)
        (mulB D (bsearchF 64 D (normalize ⟨limb :: cur.num, cur.sign⟩)
          ⟨[0], true⟩ ⟨[0, 1], true⟩)),
       (bsearchF 64 D (normalize ⟨limb :: cur.num, cur.sign⟩)
          ⟨[0], true⟩ ⟨[0, 1], true⟩).num.headD 0 :: q) := by
    rw [divStep, ofInt64_zero, ofInt64_base_eq]
  rw [hstep]
  have hhead : (bsearchF 64 D (normalize ⟨limb :: cur.num, cur.sign⟩)
      ⟨[0], true⟩ ⟨[0, 1], true⟩).num.headD 0 =
      toInt (bsearchF 64 D (normalize ⟨limb :: cur.num, cur.sign⟩)
      ⟨[0], true⟩ ⟨[0, 1], true⟩) := by
    rw [hRnum]
    rfl
  refine ⟨hSinv, sign_true_of_nonneg hSinv hS0, hS0, hSb, ?_, by simp, by simp, ?_⟩
  · show LimbsOk (_ :: q)
    rw [hhead]
    exact LimbsOk.cons_iff.mpr ⟨⟨hR0, hRb⟩, hq⟩
  · show val D.num * val (_ :: q) + toInt _ = _
    rw [hhead, val_cons, hSv, hMv, htD, htC]
    ring

theorem foldl_mul_base (l : List Int) : ∀ a : Int,
    l.reverse.foldl (fun acc d => acc * base + d) a = a * base ^ l.length + val l := by
  induction l with
  | nil => intro a; simp [val_nil]
  | cons x xs ih =>
    intro a
    rw [List.reverse_cons, List.foldl_append, ih a]
    simp only [List.foldl_cons, List.foldl_nil, List.length_cons, val_cons, pow_succ]
    ring

/-- The long-division limb loop, over a whole run of dividend limbs. -/
theorem divFold_spec : ∀ (ls : List Int) (D cur : BigInt) (q : List Int) (v : Int),
    Inv D → D.sign = true → 0 < val D.num →
    LimbsOk ls →
    Inv cur → cur.sign = true → 0 ≤ toInt cur → toInt cur < val D.num →
    LimbsOk q → q ≠ [] →
    v = val D.num * val q + toInt cur →
    Inv (ls.foldl (divStep D) (cur, q)).1 ∧
    0 ≤ toInt (ls.foldl (divStep D) (cur, q)).1 ∧
    toInt (ls.foldl (divStep D) (cur, q)).1 < val D.num ∧
    LimbsOk (ls.foldl (divStep D) (cur, q)).2 ∧
    (ls.foldl (divStep D) (cur, q)).2 ≠ [] ∧
    ls.foldl (fun acc d => acc * base + d) v =
      val D.num * val (ls.foldl (divStep D) (cur, q)).2 +
        toInt (ls.foldl (divStep D) (cur, q)).1 := by
  intro ls
  induction ls with
  | nil =>
    intro D cur q v hD hDs hDpos _ hcur hcs hc0 hcb hq hqne hv
    simp only [List.foldl_nil]
    exact ⟨hcur, hc0, hcb, hq, hqne, hv⟩
  | cons limb ls' ih =>
    intro D cur q v hD hDs hDpos hls hcur hcs hc0 hcb hq hqne hv
    rcases LimbsOk.cons_iff.mp hls with ⟨⟨hl0, hlb⟩, hls'⟩
    rcases divStep_spec hD hDs hDpos hcur hcs hc0 hcb hq hl0 hlb with
      ⟨h1, h2, h3, h4, h5, h6, _, h8⟩
    have heta : ((divStep D (cur, q) limb).1, (divStep D (cur, q) limb).2) =
        divStep D (cur, q) limb := rfl
    have hrec := ih D (divStep D (cur, q) limb).1 (divStep D (cur, q) limb).2
      (v * base + limb) hD hDs hDpos hls' h1 h2 h3 h4 h5 h6
      (by rw [h8, hv])
    rw [heta] at hrec
    simpa only [List.foldl_cons] using hrec

theorem tdiv_sign_decomp (sa sb : Bool) (va vb : Int) (hva : 0 ≤ va) (hvb : 0 ≤ vb) :
    Int.tdiv (if sa then va else -va) (if sb then vb else -vb) =
      (if sa == sb then va / vb else -(va / vb)) := by
  cases sa <;> cases sb <;>
    simp [Int.neg_tdiv, Int.tdiv_neg, Int.tdiv_eq_ediv hva hvb]

theorem toInt_eq_if (b : BigInt) : toInt b = if b.sign then val b.num else -val b.num := rfl

/-- The quotient computation of `operator/=` computes truncating division
(quotient of the magnitudes, sign `a._sign == b._sign`). -/
theorem divNZ_spec {a b : BigInt} (ha : Inv a) (hb : Inv b) (hz : b.num ≠ [0]) :
    Inv (divNZ a b) ∧ toInt (divNZ a b) = Int.tdiv (toInt a) (toInt b) := by
  have hvb : 0 < val b.num := val_pos_of_ne_single_zero hb.1 hb.2.1 hz
  have hva : 0 ≤ val a.num := val_num_nonneg ha
  have habs : Inv a.abs := abs_inv ha
  have hbabs : Inv b.abs := abs_inv hb
  have htdiv : Int.tdiv (toInt a) (toInt b) =
      (if a.sign == b.sign then val a.num / val b.num else -(val a.num / val b.num)) := by
    rw [toInt_eq_if a, toInt_eq_if b]
    exact tdiv_sign_decomp a.sign b.sign (val a.num) (val b.num) hva (le_of_lt hvb)
  unfold divNZ
  by_cases hlt : ltB a.abs b.abs = true
  · rw [if_pos hlt]
    have hvab : val a.num < val b.num := by
      have := (ltB_iff habs hbabs).mp hlt
      rwa [toInt_abs, toInt_abs] at this
    have hq0 : val a.num / val b.num = 0 := Int.ediv_eq_zero_of_lt hva hvab
    refine ⟨inv_zero_big, ?_⟩
    rw [toInt_zero_big, htdiv, hq0]
    split <;> ring
  · rw [if_neg hlt]
    have hfold := divFold_spec a.abs.num.reverse b.abs (⟨[0], true⟩ : BigInt) [0] 0
      hbabs rfl (by show 0 < val b.num; exact hvb)
      ((abs_inv ha).1.reverse)
      inv_zero_big rfl (by rw [toInt_zero_big]) (by rw [toInt_zero_big]; exact hvb)
      (by intro z hzz; simp at hzz; subst hzz; exact ⟨le_refl 0, base_pos⟩)
      (by simp)
      (by rw [toInt_zero_big]; simp [val_cons, val_nil])
    rcases hfold with ⟨h1, h2, h3, h4, h5, h6⟩
    have hvfold : a.abs.num.reverse.foldl (fun acc d => acc * base + d) 0 = val a.num := by
      rw [foldl_mul_base]
      show (0 : Int) * base ^ a.num.length + val a.num = val a.num
      ring
    rw [hvfold] at h6
    have hqval : val a.num / val b.num =
        val (a.abs.num.reverse.foldl (divStep b.abs) (⟨[0], true⟩, [0])).2 := by
      apply ediv_eq_of_bounds hvb
      · have : val b.abs.num = val b.num := rfl
        rw [this] at h6 h3
        omega
      · have : val b.abs.num = val b.num := rfl
        rw [this] at h6 h3
        nlinarith
    refine ⟨normalize_inv _ h4 h5, ?_⟩
    rw [normalize_toInt, htdiv, hqval]

/-- The modulo computation of `operator%=` computes the truncated
remainder. -/
theorem modNZ_spec {a b : BigInt} (ha : Inv a) (hb : Inv b) (hz : b.num ≠ [0]) :
    Inv (modNZ a b) ∧ toInt (modNZ a b) = Int.tmod (toInt a) (toInt b) := by
  rcases divNZ_spec ha hb hz with ⟨hq, hqv⟩
  rcases mulB_spec hq hb with ⟨hm, hmv⟩
  rcases subB_spec ha hm with ⟨hs, hsv⟩
  unfold modNZ
  rw [normalize_of_inv hs]
  refine ⟨hs, ?_⟩
  rw [hsv, hmv, hqv, Int.tmod_def]
  ring

theorem neg_tmod_left (x y : Int) : Int.tmod (-x) y = -(Int.tmod x y) := by
  rw [Int.tmod_def, Int.tmod_def, Int.neg_tdiv]
  ring

theorem abs_tmod_lt {x y : Int} (hy : y ≠ 0) : |Int.tmod x y| < |y| := by
  have hy' : 0 < |y| := abs_pos.mpr hy
  have hmody : ∀ z : Int, Int.tmod z y = Int.tmod z |y| := by
    intro z
    rcases abs_cases y with ⟨h, _⟩ | ⟨h, _⟩
    · rw [h]
    · rw [h, Int.tmod_neg]
  have key : ∀ z : Int, 0 ≤ z → |Int.tmod z y| < |y| := by
    intro z hz
    rw [hmody z, abs_of_nonneg (Int.tmod_nonneg _ hz)]
    exact Int.tmod_lt_of_pos z hy'
  rcases le_or_lt 0 x with hx | hx
  · exact key x hx
  · have h1 : Int.tmod x y = -(Int.tmod (-x) y) := by rw [neg_tmod_left]; ring
    rw [h1, abs_neg]
    exact key (-x) (by omega)

theorem isZero_eq_false_iff {b : BigInt} : isZero b = false ↔ b.num ≠ [0] := by
  unfold isZero
  simp

/-- `operator/=` error behavior: a zero divisor yields `DivisionByZero` and
leaves the receiver untouched; a non-zero divisor yields no error. -/
theorem divAssign_err (a b : BigInt) :
    ((divAssign a b).2 = some BErr.divisionByZero ↔ isZero b = true) ∧
    (isZero b = true → (divAssign a b).1 = a) := by
  unfold divAssign
  by_cases hz : isZero b = true
  · rw [if_pos hz]
    exact ⟨⟨fun _ => hz, fun _ => rfl⟩, fun _ => rfl⟩
  · rw [if_neg hz]
    exact ⟨⟨fun hcon => (nomatch hcon), fun hcon => absurd hcon hz⟩, fun hcon => absurd hcon hz⟩

/-- `operator%=` error behavior, as `divAssign_err`. -/
theorem modAssign_err (a b : BigInt) :
    ((modAssign a b).2 = some BErr.divisionByZero ↔ isZero b = true) ∧
    (isZero b = true → (modAssign a b).1 = a) := by
  unfold modAssign
  by_cases hz : isZero b = true
  · rw [if_pos hz]
    exact ⟨⟨fun _ => hz, fun _ => rfl⟩, fun _ => rfl⟩
  · rw [if_neg hz]
    exact ⟨⟨fun hcon => (nomatch hcon), fun hcon => absurd hcon hz⟩, fun hcon => absurd hcon hz⟩

/-! ### Decimal strings: characters and digit runs -/

theorem char_le_iff {a b : Char} : a ≤ b ↔ a.toNat ≤ b.toNat := Iff.rfl

theorem digit_toNat {c : Char} (h : '0' ≤ c ∧ c ≤ '9') :
    48 ≤ c.toNat ∧ c.toNat ≤ 57 :=
  ⟨char_le_iff.mp h.1, char_le_iff.mp h.2⟩

theorem digitChar_toNat {d : Nat} (hd : d < 10) : (digitChar d).toNat = 48 + d := by
  interval_cases d <;> decide

theorem digitChar_of_digit {c : Char} (h : '0' ≤ c ∧ c ≤ '9') :
    digitChar (c.toNat - 48) = c := by
  rcases digit_toNat h with ⟨h1, _⟩
  unfold digitChar
  have heq : 48 + (c.toNat - 48) = c.toNat := by omega
  rw [heq, Char.ofNat_toNat]

theorem digit_of_digitChar {d : Nat} (hd : d < 10) :
    '0' ≤ digitChar d ∧ digitChar d ≤ '9' := by
  interval_cases d <;> exact ⟨by decide, by decide⟩

theorem charVal_digitChar {d : Nat} (hd : d < 10) : (digitChar d).toNat - 48 = d := by
  rw [digitChar_toNat hd]
  omega

theorem decValue_nil : decValue [] = 0 := rfl

theorem decValue_go : ∀ (l : List Char) (x : Int),
    l.foldl (fun y c => y * 10 + ((c.toNat : Int) - 48)) x =
      x * 10 ^ l.length + decValue l := by
  intro l
  induction l with
  | nil => intro x; simp [decValue]
  | cons c t ih =>
    intro x
    have hdec : decValue (c :: t) = ((c.toNat : Int) - 48) * 10 ^ t.length + decValue t := by
      show List.foldl _ _ (c :: t) = _
      rw [List.foldl_cons, ih]
      ring
    rw [List.foldl_cons, ih, hdec, List.length_cons, pow_succ]
    ring

theorem decValue_cons (c : Char) (t : List Char) :
    decValue (c :: t) = ((c.toNat : Int) - 48) * 10 ^ t.length + decValue t := by
  show List.foldl _ _ (c :: t) = _
  rw [List.foldl_cons, decValue_go]
  ring

theorem decValue_append (l1 l2 : List Char) :
    decValue (l1 ++ l2) = decValue l1 * 10 ^ l2.length + decValue l2 := by
  show List.foldl _ _ (l1 ++ l2) = _
  rw [List.foldl_append, decValue_go]
  rfl

theorem decValue_nonneg {l : List Char} (h : ∀ c ∈ l, '0' ≤ c ∧ c ≤ '9') :
    0 ≤ decValue l := by
  induction l with
  | nil => simp [decValue_nil]
  | cons c t ih =>
    rcases digit_toNat (h c (List.mem_cons_self _ _)) with ⟨h1, h2⟩
    have ht := ih (fun z hz => h z (List.mem_cons_of_mem _ hz))
    have hp : (0 : Int) < 10 ^ t.length := pow_pos (by norm_num) _
    rw [decValue_cons]
    have : (0 : Int) ≤ (c.toNat : Int) - 48 := by
      have : (48 : Int) ≤ (c.toNat : Int) := by exact_mod_cast h1
      omega
    nlinarith

theorem decValue_lt {l : List Char} (h : ∀ c ∈ l, '0' ≤ c ∧ c ≤ '9') :
    decValue l < 10 ^ l.length := by
  induction l with
  | nil => simp [decValue_nil]
  | cons c t ih =>
    rcases digit_toNat (h c (List.mem_cons_self _ _)) with ⟨h1, h2⟩
    have ht := ih (fun z hz => h z (List.mem_cons_of_mem _ hz))
    have hp : (0 : Int) < 10 ^ t.length := pow_pos (by norm_num) _
    rw [decValue_cons, List.length_cons, pow_succ]
    have hd9 : (c.toNat : Int) - 48 ≤ 9 := by
      have : (c.toNat : Int) ≤ 57 := by exact_mod_cast h2
      omega
    nlinarith

theorem decValue_replicate_zero (k : Nat) : decValue (List.replicate k '0') = 0 := by
  induction k with
  | zero => rfl
  | succ n ih =>
    rw [List.replicate_succ, decValue_cons, ih]
    norm_num
    decide

theorem decValue_zeros_before (k : Nat) (t : List Char) :
    decValue (List.replicate k '0' ++ t) = decValue t := by
  rw [decValue_append, decValue_replicate_zero]
  ring

theorem decValue_head_pos {c : Char} {t : List Char}
    (hc : '0' ≤ c ∧ c ≤ '9') (hc0 : c ≠ '0') (ht : ∀ z ∈ t, '0' ≤ z ∧ z ≤ '9') :
    0 < decValue (c :: t) := by
  rcases digit_toNat hc with ⟨h1, h2⟩
  have hne : c.toNat ≠ 48 := by
    intro hcon
    apply hc0
    have : digitChar (c.toNat - 48) = c := digitChar_of_digit hc
    rw [hcon] at this
    simpa using this.symm
  have ht0 := decValue_nonneg ht
  have hp : (0 : Int) < 10 ^ t.length := pow_pos (by norm_num) _
  rw [decValue_cons]
  have : (1 : Int) ≤ (c.toNat : Int) - 48 := by
    have h48 : (48 : Int) ≤ (c.toNat : Int) := by exact_mod_cast h1
    have : (c.toNat : Int) ≠ 48 := by exact_mod_cast hne
    omega
  nlinarith

theorem decValue_reverse_map_digitChar : ∀ ds : List Nat, (∀ d ∈ ds, d < 10) →
    decValue ((ds.map digitChar).reverse) = ((Nat.ofDigits 10 ds : Nat) : Int) := by
  intro ds
  induction ds with
  | nil => intro _; simp [decValue_nil, Nat.ofDigits]
  | cons d t ih =>
    intro h
    have hd := h d (List.mem_cons_self _ _)
    have ht := ih (fun z hz => h z (List.mem_cons_of_mem _ hz))
    rw [List.map_cons, List.reverse_cons, decValue_append, ht]
    have h1 : decValue [digitChar d] = (d : Int) := by
      rw [show [digitChar d] = digitChar d :: [] from rfl, decValue_cons]
      rw [digitChar_toNat hd]
      simp [decValue_nil]
    rw [h1, Nat.ofDigits_cons]
    have h2 : ([digitChar d]).length = 1 := rfl
    rw [h2]
    push_cast
    ring

theorem digits_len_le_of_lt_pow {n k : Nat} (h : n < 10 ^ k) :
    (Nat.digits 10 n).length ≤ k := by
  by_cases hn : n = 0
  · subst hn; simp
  · by_contra hcon
    push_neg at hcon
    have h1 : 10 ^ (Nat.digits 10 n).length ≤ 10 * n :=
      Nat.base_pow_length_digits_le 10 n (by norm_num) hn
    have h2 : 10 ^ (k + 1) ≤ 10 ^ (Nat.digits 10 n).length :=
      Nat.pow_le_pow_right (by norm_num) (by omega)
    have h3 : 10 ^ (k + 1) = 10 * 10 ^ k := by ring
    omega

theorem natDigitsRevF_eq : ∀ (f n : Nat), n < 10 ^ f →
    natDigitsRevF f n = (Nat.digits 10 n).map digitChar := by
  intro f
  induction f with
  | zero =>
    intro n hn
    have : n = 0 := by simpa using hn
    subst this
    simp [natDigitsRevF]
  | succ f ih =>
    intro n hn
    by_cases hz : n = 0
    · subst hz
      simp [natDigitsRevF]
    · rw [natDigitsRevF, if_neg hz, Nat.digits_def' (by norm_num : (1 : Nat) < 10)
        (Nat.pos_of_ne_zero hz), List.map_cons]
      congr 1
      apply ih
      have h10 : 10 ^ (f + 1) = 10 * 10 ^ f := by ring
      rw [h10] at hn
      exact Nat.div_lt_of_lt_mul hn

theorem natToDec_spec {n : Nat} (hn : n < 10 ^ 24) :
    (∀ c ∈ natToDec n, '0' ≤ c ∧ c ≤ '9') ∧ natToDec n ≠ [] ∧
    decValue (natToDec n) = (n : Int) := by
  unfold natToDec
  by_cases hz : n = 0
  · subst hz
    refine ⟨?_, by simp, by decide⟩
    intro c hc
    simp at hc
    subst hc
    exact ⟨by decide, by decide⟩
  · rw [if_neg hz, natDigitsRevF_eq 24 n hn]
    have hbounds : ∀ d ∈ Nat.digits 10 n, d < 10 :=
      fun d hd => Nat.digits_lt_base (by norm_num) hd
    refine ⟨?_, ?_, ?_⟩
    · intro c hc
      rw [List.mem_reverse] at hc
      rcases List.mem_map.mp hc with ⟨d, hd, hdc⟩
      subst hdc
      exact digit_of_digitChar (hbounds d hd)
    · intro hcon
      have h1 : (Nat.digits 10 n).map digitChar = [] := by simpa using hcon
      have h2 : Nat.digits 10 n = [] := by simpa using h1
      exact (Nat.digits_ne_nil_iff_ne_zero.mpr hz) h2
    · rw [decValue_reverse_map_digitChar _ hbounds, Nat.ofDigits_digits]

theorem natToDec_head {n : Nat} (hn : n < 10 ^ 24) (hz : n ≠ 0) :
    (natToDec n).headD '0' ≠ '0' := by
  unfold natToDec
  rw [if_neg hz, natDigitsRevF_eq 24 n hn]
  have hne : Nat.digits 10 n ≠ [] := Nat.digits_ne_nil_iff_ne_zero.mpr hz
  have hlast := Nat.getLast_digit_ne_zero 10 hz
  have hlast10 : (Nat.digits 10 n).getLast hne < 10 :=
    Nat.digits_lt_base (by norm_num) (List.getLast_mem hne)
  rw [List.headD_eq_head?_getD, List.head?_reverse, List.getLast?_map,
    List.getLast?_eq_getLast _ hne]
  simp only [Option.map_some', Option.getD_some]
  intro hcon
  apply hlast
  have := charVal_digitChar hlast10
  rw [hcon] at this
  simpa using this.symm

theorem natToDec_length_le {n k : Nat} (hn : n < 10 ^ k) (hk0 : 0 < k) (hk : k ≤ 24) :
    (natToDec n).length ≤ k := by
  unfold natToDec
  by_cases hz : n = 0
  · rw [if_pos hz]
    simpa using hk0
  · have hn24 : n < 10 ^ 24 :=
      lt_of_lt_of_le hn (Nat.pow_le_pow_right (by norm_num) hk)
    rw [if_neg hz, natDigitsRevF_eq 24 n hn24]
    simpa using digits_len_le_of_lt_pow hn

theorem canonDigits_single {c : Char} (h : '0' ≤ c ∧ c ≤ '9') : canonDigits [c] := by
  refine ⟨?_, by simp, ?_⟩
  · intro z hz
    simp at hz
    subst hz
    exact h
  · intro hc
    simp at hc
    simp [hc]

theorem natToDec_decValue {D : List Char} (hD : canonDigits D) (hlen : D.length ≤ 18) :
    natToDec (decValue D).toNat = D := by
  rcases hD with ⟨hdig, hne, hhead⟩
  have hmap : (((D.map (fun c => c.toNat - 48)).reverse.map digitChar)).reverse = D := by
    rw [List.map_reverse, List.reverse_reverse, List.map_map]
    have : D.map (digitChar ∘ fun c => c.toNat - 48) = D.map id :=
      List.map_congr_left (fun c hc => digitChar_of_digit (hdig c hc))
    rw [this, List.map_id]
  have hds : ∀ d ∈ (D.map (fun c => c.toNat - 48)).reverse, d < 10 := by
    intro d hd
    rw [List.mem_reverse] at hd
    rcases List.mem_map.mp hd with ⟨c, hc, hdc⟩
    rcases digit_toNat (hdig c hc) with ⟨_, h2⟩
    omega
  have h1 : decValue D = ((Nat.ofDigits 10 ((D.map (fun c => c.toNat - 48)).reverse) : Nat) : Int) := by
    conv_lhs => rw [← hmap]
    exact decValue_reverse_map_digitChar _ hds
  by_cases hD0 : D = ['0']
  · subst hD0
    decide
  · have hheadne : D.headD '0' ≠ '0' := fun hcon => hD0 (hhead hcon)
    have hdsne : (D.map (fun c => c.toNat - 48)).reverse ≠ [] := by
      simpa using hne
    have hlastne : ∀ h : (D.map (fun c => c.toNat - 48)).reverse ≠ [],
        ((D.map (fun c => c.toNat - 48)).reverse).getLast h ≠ 0 := by
      intro h
      have hq := List.getLast?_eq_getLast _ h
      rw [List.getLast?_reverse, List.head?_map, List.head?_eq_head hne] at hq
      simp only [Option.map_some'] at hq
      have hval : ((D.map (fun c => c.toNat - 48)).reverse).getLast h =
          (D.head hne).toNat - 48 := (Option.some.inj hq).symm
      rw [hval]
      have hcdig : '0' ≤ D.head hne ∧ D.head hne ≤ '9' := hdig _ (List.head_mem hne)
      rcases digit_toNat hcdig with ⟨hc1, _⟩
      intro hcon
      apply hheadne
      have hhd : D.headD '0' = D.head hne := by
        rw [List.headD_eq_head?_getD, List.head?_eq_head hne]
        rfl
      rw [hhd]
      have h48 : (D.head hne).toNat = 48 := by omega
      have hcc := digitChar_of_digit hcdig
      have hval2 : D.head hne = digitChar 0 := by
        rw [← hcc, h48]
      rw [hval2]
      decide
    have hdigits := Nat.digits_ofDigits 10 (by norm_num) _ hds hlastne
    have hnz : Nat.ofDigits 10 ((D.map (fun c => c.toNat - 48)).reverse) ≠ 0 := by
      intro hcon
      rw [hcon] at hdigits
      have hnil : (D.map (fun c => c.toNat - 48)).reverse = [] := by
        rw [← hdigits]
        simp
      exact hdsne hnil
    have htoNat : (decValue D).toNat = Nat.ofDigits 10 ((D.map (fun c => c.toNat - 48)).reverse) := by
      rw [h1]
      simp
    have hbound : Nat.ofDigits 10 ((D.map (fun c => c.toNat - 48)).reverse) < 10 ^ 24 := by
      have hdv := decValue_lt hdig
      have hp : (10 : Int) ^ D.length ≤ 10 ^ 24 :=
        pow_le_pow_right₀ (by norm_num) (by omega)
      have : decValue D < 10 ^ 24 := lt_of_lt_of_le hdv hp
      rw [h1] at this
      exact_mod_cast this
    rw [htoNat]
    unfold natToDec
    rw [if_neg hnz, natDigitsRevF_eq 24 _ hbound, hdigits, hmap]

theorem ten_pow_18 : (10 : Int) ^ 18 = base := by norm_num [base]

theorem pad_digits : ∀ (C : List Char), (∀ c ∈ C, '0' ≤ c ∧ c ≤ '9') → C ≠ [] →
    C.length ≤ 18 →
    List.replicate (C.length - (natToDec (decValue C).toNat).length) '0' ++
      natToDec (decValue C).toNat = C := by
  intro C
  induction C with
  | nil => intro _ h _; exact absurd rfl h
  | cons c C' ih =>
    intro hdig _ hlen
    by_cases hC' : C' = []
    · subst hC'
      have hcanon : canonDigits [c] := canonDigits_single (hdig c (List.mem_cons_self _ _))
      have heq := natToDec_decValue hcanon (by simp)
      rw [heq]
      simp
    · have hdig' : ∀ z ∈ C', '0' ≤ z ∧ z ≤ '9' :=
        fun z hz => hdig z (List.mem_cons_of_mem _ hz)
      by_cases hc0 : c = '0'
      · subst hc0
        have hdv0 : (('0'.toNat : Int) - 48) = 0 := by decide
        have hdecEq : decValue ('0' :: C') = decValue C' := by
          rw [decValue_cons, hdv0]
          ring
        have hlt : (decValue C').toNat < 10 ^ C'.length := by
          have h1 := decValue_lt hdig'
          have h0 := decValue_nonneg hdig'
          have h2 : ((decValue C').toNat : Int) = decValue C' := Int.toNat_of_nonneg h0
          have h3 : ((decValue C').toNat : Int) < ((10 : Nat) ^ C'.length : Nat) := by
            rw [h2]
            exact_mod_cast h1
          exact_mod_cast h3
        have hk : (natToDec (decValue C').toNat).length ≤ C'.length :=
          natToDec_length_le hlt (List.length_pos.mpr hC') (by simp at hlen; omega)
        rw [hdecEq]
        have hstep : ('0' :: C').length - (natToDec (decValue C').toNat).length =
            (C'.length - (natToDec (decValue C').toNat).length) + 1 := by
          simp only [List.length_cons]
          omega
        rw [hstep, List.replicate_succ, List.cons_append,
          ih hdig' hC' (by simp at hlen; omega)]
      · have hcanon : canonDigits (c :: C') := by
          refine ⟨hdig, by simp, fun hcon => ?_⟩
          exact absurd (by simpa using hcon) hc0
        have heq := natToDec_decValue hcanon hlen
        rw [heq]
        simp

theorem pad_chunk {C : List Char} (hdig : ∀ c ∈ C, '0' ≤ c ∧ c ≤ '9')
    (hlen : C.length = 18) : pad18 (decValue C) = C := by
  have hne : C ≠ [] := by
    intro h
    rw [h] at hlen
    simp at hlen
  have h0 : 0 ≤ decValue C := decValue_nonneg hdig
  have habs : (decValue C).natAbs = (decValue C).toNat := by omega
  unfold pad18 int64ToDec
  rw [if_neg (by omega), habs]
  simp only [List.nil_append]
  have := pad_digits C hdig hne (by omega)
  rw [hlen] at this
  exact this

theorem parseLimbsF_nil (f : Nat) : parseLimbsF f [] = [] := by
  cases f <;> rfl

theorem parseLimbsF_cons (fuel : Nat) (c : Char) (t : List Char) :
    parseLimbsF (fuel + 1) (c :: t) =
      decValue ((c :: t).take 18).reverse :: parseLimbsF fuel ((c :: t).drop 18) := rfl

theorem renderLimbsMS_append {l : List Int} (x : Int) (h : l ≠ []) :
    renderLimbsMS (l ++ [x]) = renderLimbsMS l ++ pad18 x := by
  rcases l with _ | ⟨top, rest⟩
  · exact absurd rfl h
  · show int64ToDec top ++ ((rest ++ [x]).map pad18).flatten =
      (int64ToDec top ++ (rest.map pad18).flatten) ++ pad18 x
    rw [List.map_append, List.flatten_append]
    simp [List.append_assoc]

theorem headD_take {D : List Char} (hne : D ≠ []) {k : Nat} (hk : 0 < k) :
    (D.take k).headD '0' = D.headD '0' := by
  rcases D with _ | ⟨c, t⟩
  · exact absurd rfl hne
  · rcases k with _ | k
    · omega
    · rw [List.take_succ_cons]
      rfl

/-- Main chunk-level round trip for the string constructor and
`to_string`: parsing a canonical digit run and rendering the limbs
reproduces the run, keeping limbs canonical. -/
theorem parse_render_core : ∀ (n : Nat) (D : List Char) (f : Nat), D.length ≤ n →
    D.length ≤ f → canonDigits D →
    val (parseLimbsF f D.reverse) = decValue D ∧
    LimbsOk (parseLimbsF f D.reverse) ∧
    Canonical (parseLimbsF f D.reverse) ∧
    (D.headD '0' ≠ '0' → 0 < val (parseLimbsF f D.reverse)) ∧
    renderLimbsMS (parseLimbsF f D.reverse).reverse = D := by
  intro n
  induction n with
  | zero =>
    intro D f hn _ hD
    have : D = [] := List.eq_nil_of_length_eq_zero (by omega)
    exact absurd this hD.2.1
  | succ n ih =>
    intro D f hn hf hD
    rcases hD with ⟨hdig, hne, hhead⟩
    have hlen1 : 1 ≤ D.length := List.length_pos.mpr hne
    rcases f with _ | g
    · omega
    rcases List.exists_cons_of_ne_nil (show D.reverse ≠ [] by simpa using hne)
      with ⟨c, t, hct⟩
    have hdec0 : 0 ≤ decValue D := decValue_nonneg hdig
    by_cases hsmall : D.length ≤ 18
    · have htake : (D.reverse.take 18).reverse = D := by
        rw [List.take_of_length_le (by simpa using hsmall), List.reverse_reverse]
      have hdrop : D.reverse.drop 18 = [] :=
        List.drop_eq_nil_of_le (by simpa using hsmall)
      have hparse : parseLimbsF (g + 1) D.reverse = [decValue D] := by
        rw [hct, parseLimbsF_cons, ← hct, htake, hdrop, parseLimbsF_nil]
      rw [hparse]
      have hdlt : decValue D < base := by
        have h1 := decValue_lt hdig
        have h2 : (10 : Int) ^ D.length ≤ 10 ^ 18 :=
          pow_le_pow_right₀ (by norm_num) hsmall
        rw [← ten_pow_18]
        omega
      refine ⟨by simp [val_cons, val_nil], ?_, ?_, ?_, ?_⟩
      · intro z hz
        simp at hz
        subst hz
        exact ⟨hdec0, hdlt⟩
      · refine ⟨by simp, fun hlast => ?_⟩
        have : decValue D = 0 := by simpa using hlast
        simp [this]
      · intro hh
        rcases D with _ | ⟨d0, t0⟩
        · exact absurd rfl hne
        · have := decValue_head_pos (hdig d0 (List.mem_cons_self _ _))
            (fun hcon => hh (by simp [hcon]))
            (fun z hz => hdig z (List.mem_cons_of_mem _ hz))
          simpa [val_cons, val_nil] using this
      · show renderLimbsMS [decValue D] = D
        show int64ToDec (decValue D) ++ ([] : List (List Char)).flatten = D
        unfold int64ToDec
        rw [if_neg (by omega)]
        have habs : (decValue D).natAbs = (decValue D).toNat := by omega
        rw [habs, natToDec_decValue ⟨hdig, hne, hhead⟩ hsmall]
        simp
    · push_neg at hsmall
      have hhD : D.headD '0' ≠ '0' := by
        intro h
        have := hhead h
        rw [this] at hsmall
        simp at hsmall
      set k := D.length - 18 with hk
      have hk1 : 1 ≤ k := by omega
      have htd := List.take_append_drop k D
      have hlenC : (D.drop k).length = 18 := by
        rw [List.length_drop]
        omega
      have hlenD' : (D.take k).length = k := by
        rw [List.length_take]
        omega
      have hrev : D.reverse = (D.drop k).reverse ++ (D.take k).reverse := by
        conv_lhs => rw [← htd]
        rw [List.reverse_append]
      have htake18 : D.reverse.take 18 = (D.drop k).reverse := by
        rw [hrev]
        exact List.take_left' (by simpa using hlenC)
      have hdrop18 : D.reverse.drop 18 = (D.take k).reverse := by
        rw [hrev]
        exact List.drop_left' (by simpa using hlenC)
      have hdigD' : ∀ z ∈ D.take k, '0' ≤ z ∧ z ≤ '9' :=
        fun z hz => hdig z (List.mem_of_mem_take hz)
      have hdigC : ∀ z ∈ D.drop k, '0' ≤ z ∧ z ≤ '9' :=
        fun z hz => hdig z (List.mem_of_mem_drop hz)
      have hneD' : D.take k ≠ [] := by
        intro hcon
        have := congrArg List.length hcon
        rw [hlenD'] at this
        simp at this
        omega
      have hheadD' : (D.take k).headD '0' = D.headD '0' := headD_take hne hk1
      have hcanonD' : canonDigits (D.take k) :=
        ⟨hdigD', hneD', fun hcon => absurd (hheadD'.symm.trans hcon) hhD⟩
      have hrec := ih (D.take k) g (by omega) (by omega) hcanonD'
      rcases hrec with ⟨hval, hok, hcanon, hpos, hrender⟩
      have hposD' : 0 < val (parseLimbsF g (D.take k).reverse) :=
        hpos (by rw [hheadD']; exact hhD)
      have hparse : parseLimbsF (g + 1) D.reverse =
          decValue (D.drop k) :: parseLimbsF g (D.take k).reverse := by
        rw [hct, parseLimbsF_cons, ← hct, htake18, hdrop18, List.reverse_reverse]
      rw [hparse]
      have hdCbound : decValue (D.drop k) < base := by
        have h1 := decValue_lt hdigC
        rw [hlenC, ten_pow_18] at h1
        exact h1
      have hdC0 : 0 ≤ decValue (D.drop k) := decValue_nonneg hdigC
      have hdecD : decValue D = decValue (D.take k) * base + decValue (D.drop k) := by
        conv_lhs => rw [← htd]
        rw [decValue_append, hlenC, ten_pow_18]
      have hrecne : parseLimbsF g (D.take k).reverse ≠ [] := hcanon.1
      refine ⟨?_, ?_, ?_, ?_, ?_⟩
      · rw [val_cons, hval, hdecD]
        ring
      · intro z hz
        rcases List.mem_cons.mp hz with h | h
        · subst h
          exact ⟨hdC0, hdCbound⟩
        · exact hok z h
      · refine ⟨by simp, fun hlast => ?_⟩
        exfalso
        rcases List.exists_cons_of_ne_nil hrecne with ⟨y, ys, hyys⟩
        rw [hyys] at hlast
        rw [List.getLast?_cons_cons] at hlast
        have h1 := hcanon.2 (by rw [hyys]; exact hlast)
        rw [h1] at hposD'
        simp [val_cons, val_nil] at hposD'
      · intro _
        rw [val_cons]
        have hb := base_pos
        nlinarith
      · rw [List.reverse_cons, renderLimbsMS_append _ (by simpa using hrecne), hrender,
          pad_chunk hdigC hlenC, htd]

/-! ### Rendering a canonical limb list, and the narrowing conversion -/

theorem int64ToDec_nonneg_digits {x : Int} (h0 : 0 ≤ x) (hlt : x < base) :
    (∀ c ∈ int64ToDec x, '0' ≤ c ∧ c ≤ '9') ∧ int64ToDec x ≠ [] ∧
    decValue (int64ToDec x) = x ∧ (int64ToDec x).length ≤ 18 := by
  have hx18 : x.natAbs < 10 ^ 18 := by
    have h1 : (x.natAbs : Int) < ((10 : Nat) ^ 18 : Nat) := by
      rw [Int.natAbs_of_nonneg h0]
      have h2 : (((10 : Nat) ^ 18 : Nat) : Int) = base := by norm_num [base]
      rw [h2]
      exact hlt
    exact_mod_cast h1
  have hx24 : x.natAbs < 10 ^ 24 :=
    lt_of_lt_of_le hx18 (Nat.pow_le_pow_right (by norm_num) (by norm_num))
  obtain ⟨hd, hne, hv⟩ := natToDec_spec hx24
  unfold int64ToDec
  rw [if_neg (by omega)]
  simp only [List.nil_append]
  refine ⟨hd, hne, ?_, ?_⟩
  · rw [hv, Int.natAbs_of_nonneg h0]
  · exact natToDec_length_le hx18 (by norm_num) (by norm_num)

theorem pad18_spec {x : Int} (h0 : 0 ≤ x) (hlt : x < base) :
    (∀ c ∈ pad18 x, '0' ≤ c ∧ c ≤ '9') ∧ (pad18 x).length = 18 ∧
    decValue (pad18 x) = x := by
  obtain ⟨hd, hne, hv, hlen⟩ := int64ToDec_nonneg_digits h0 hlt
  show (∀ c ∈ List.replicate (18 - (int64ToDec x).length) '0' ++ int64ToDec x,
      '0' ≤ c ∧ c ≤ '9') ∧
    (List.replicate (18 - (int64ToDec x).length) '0' ++ int64ToDec x).length = 18 ∧
    decValue (List.replicate (18 - (int64ToDec x).length) '0' ++ int64ToDec x) = x
  refine ⟨?_, ?_, ?_⟩
  · intro c hc
    rcases List.mem_append.mp hc with h | h
    · rw [List.eq_of_mem_replicate h]
      exact ⟨le_refl _, by decide⟩
    · exact hd c h
  · rw [List.length_append, List.length_replicate]
    omega
  · rw [decValue_zeros_before, hv]

theorem flatten_pad18 : ∀ rest : List Int, LimbsOk rest →
    (∀ c ∈ (rest.map pad18).flatten, '0' ≤ c ∧ c ≤ '9') ∧
    ((rest.map pad18).flatten).length = 18 * rest.length ∧
    decValue ((rest.map pad18).flatten) = val rest.reverse := by
  intro rest
  induction rest with
  | nil =>
    intro _
    exact ⟨by simp, by simp, by simp [decValue_nil, val_nil]⟩
  | cons x xs ih =>
    intro hok
    obtain ⟨hx0, hxb⟩ := hok x (List.mem_cons_self _ _)
    obtain ⟨ihd, ihlen, ihval⟩ := ih (fun z hz => hok z (List.mem_cons_of_mem _ hz))
    obtain ⟨pd, plen, pval⟩ := pad18_spec hx0 hxb
    have hflat : ((x :: xs).map pad18).flatten = pad18 x ++ (xs.map pad18).flatten := by
      simp
    refine ⟨?_, ?_, ?_⟩
    · rw [hflat]
      intro c hc
      rcases List.mem_append.mp hc with h | h
      · exact pd c h
      · exact ihd c h
    · rw [hflat, List.length_append, plen, ihlen, List.length_cons]
      ring
    · rw [hflat, decValue_append, pval, ihval, ihlen]
      have h1 : (x :: xs).reverse = xs.reverse ++ [x] := by simp
      rw [h1, val_append]
      have h2 : (10 : Int) ^ (18 * xs.length) = base ^ xs.length := by
        rw [pow_mul, ten_pow_18]
      rw [h2, List.length_reverse]
      simp [val_cons, val_nil]
      ring

theorem renderLimbsMS_core {L : List Int} (hok : LimbsOk L) (hne : L ≠ []) :
    (∀ c ∈ renderLimbsMS L, '0' ≤ c ∧ c ≤ '9') ∧ renderLimbsMS L ≠ [] ∧
    decValue (renderLimbsMS L) = val L.reverse := by
  rcases L with _ | ⟨top, rest⟩
  · exact absurd rfl hne
  obtain ⟨ht0, htb⟩ := hok top (List.mem_cons_self _ _)
  obtain ⟨td, tne, tval, _⟩ := int64ToDec_nonneg_digits ht0 htb
  obtain ⟨fd, flen, fval⟩ := flatten_pad18 rest (fun z hz => hok z (List.mem_cons_of_mem _ hz))
  have hshow : renderLimbsMS (top :: rest) = int64ToDec top ++ (rest.map pad18).flatten := rfl
  refine ⟨?_, ?_, ?_⟩
  · rw [hshow]
    intro c hc
    rcases List.mem_append.mp hc with h | h
    · exact td c h
    · exact fd c h
  · rw [hshow]
    intro hcon
    exact tne (List.append_eq_nil.mp hcon).1
  · rw [hshow, decValue_append, tval, fval, flen]
    have h1 : (top :: rest).reverse = rest.reverse ++ [top] := by simp
    rw [h1, val_append]
    have h2 : (10 : Int) ^ (18 * rest.length) = base ^ rest.length := by
      rw [pow_mul, ten_pow_18]
    rw [h2, List.length_reverse]
    simp [val_cons, val_nil]
    ring

theorem stoll_to_string {b : BigInt} (hb : Inv b) :
    stoll (to_string b) =
      if toInt b < -(2 ^ 63) ∨ 2 ^ 63 - 1 < toInt b then Except.error StollErr.outOfRange
      else Except.ok (toInt b, (to_string b).length) := by
  have hokrev : LimbsOk b.num.reverse := hb.1.reverse
  have hnerev : b.num.reverse ≠ [] := by simpa using hb.2.1.1
  obtain ⟨hd, hne, hv⟩ := renderLimbsMS_core hokrev hnerev
  rw [List.reverse_reverse] at hv
  have htake : (renderLimbsMS b.num.reverse).takeWhile
      (fun c => decide ('0' ≤ c ∧ c ≤ '9')) = renderLimbsMS b.num.reverse :=
    List.takeWhile_eq_self_iff.mpr (fun c hc => decide_eq_true (hd c hc))
  cases hsb : b.sign
  · have hs : to_string b = '-' :: renderLimbsMS b.num.reverse := by
      unfold to_string
      rw [hsb]
      rfl
    have hti : toInt b = -val b.num := by
      unfold toInt
      rw [hsb]
      simp
    rw [hs]
    simp only [stoll, List.headD_cons, List.tail_cons, if_true]
    rw [htake, if_neg hne, hv]
    have hm : (-1 : Int) * val b.num = -val b.num := by ring
    rw [hm, ← hti]
    simp only [List.length_cons]
    have hl : 1 + (renderLimbsMS b.num.reverse).length =
        (renderLimbsMS b.num.reverse).length + 1 := by omega
    rw [hl]
  · have hs : to_string b = renderLimbsMS b.num.reverse := by
      unfold to_string
      rw [hsb]
      rfl
    have hti : toInt b = val b.num := by
      unfold toInt
      rw [hsb]
      simp
    have hheadne : ¬((renderLimbsMS b.num.reverse).headD ' ' = '-') := by
      rcases List.exists_cons_of_ne_nil hne with ⟨c, t, hct⟩
      rw [hct, List.headD_cons]
      have hcd : '0' ≤ c ∧ c ≤ '9' := hd c (by rw [hct]; exact List.mem_cons_self _ _)
      intro hcon
      rw [hcon] at hcd
      exact absurd hcd.1 (by decide)
    have hnegF : (((renderLimbsMS b.num.reverse).headD ' ' = '-')) = False :=
      eq_false hheadne
    rw [hs]
    simp only [stoll, hnegF, if_false]
    rw [htake, if_neg hne, hv]
    have hm : (1 : Int) * val b.num = val b.num := by ring
    rw [hm, ← hti]
    have hl : 0 + (renderLimbsMS b.num.reverse).length =
        (renderLimbsMS b.num.reverse).length := by omega
    rw [hl]

theorem toInt64_spec {b : BigInt} (hb : Inv b) :
    toInt64 b = if -(2 ^ 63) ≤ toInt b ∧ toInt b ≤ 2 ^ 63 - 1 then Except.ok (toInt b)
      else Except.error BErr.overflow := by
  simp only [toInt64]
  rw [stoll_to_string hb]
  by_cases hr : toInt b < -(2 ^ 63) ∨ 2 ^ 63 - 1 < toInt b
  · rw [if_pos hr, if_neg (by omega)]
  · rw [if_neg hr, if_pos (by omega)]
    simp

/-! ### The `int64_t` constructor -/

theorem i64limbsF_zero (f : Nat) : i64limbsF f 0 = [] := by
  cases f
  · rfl
  · show (if (0 : Int) > 0 then _ else []) = []
    rw [if_neg (by omega)]

theorem i64limbsF_spec : ∀ (f : Nat) (y : Int), 0 < y → y < base ^ f →
    val (i64limbsF f y) = y ∧ LimbsOk (i64limbsF f y) ∧ Canonical (i64limbsF f y) := by
  intro f
  induction f with
  | zero =>
    intro y hy hlt
    simp at hlt
    omega
  | succ f ih =>
    intro y hy hlt
    have hstep : i64limbsF (f + 1) y =
        if y > 0 then Int.tmod y base :: i64limbsF f (Int.tdiv y base) else [] := rfl
    rw [hstep, if_pos (by omega)]
    have hmod : Int.tmod y base = y % base := Int.tmod_eq_emod (by omega) (le_of_lt base_pos)
    have hdiv : Int.tdiv y base = y / base := Int.tdiv_eq_ediv (by omega) (le_of_lt base_pos)
    have hmodlb : 0 ≤ y % base := Int.emod_nonneg y (by have := base_pos; omega)
    have hmodub : y % base < base := Int.emod_lt_of_pos y base_pos
    by_cases hq : y / base = 0
    · have hylt : y < base := by
        by_contra hcon
        push_neg at hcon
        have : 1 ≤ y / base := by
          rw [Int.le_ediv_iff_mul_le base_pos]
          omega
        omega
      have hmodeq : y % base = y := Int.emod_eq_of_lt (by omega) hylt
      rw [hmod, hdiv, hq, i64limbsF_zero, hmodeq]
      refine ⟨by simp [val_cons, val_nil], ?_, ?_, ?_⟩
      · intro z hz
        simp at hz
        subst hz
        exact ⟨by omega, hylt⟩
      · simp
      · intro h
        simp at h
        exact absurd h (by omega)
    · have hqpos : 0 < y / base :=
        lt_of_le_of_ne (Int.ediv_nonneg (by omega) (le_of_lt base_pos)) (Ne.symm hq)
      have hqlt : y / base < base ^ f := by
        rw [Int.ediv_lt_iff_lt_mul base_pos]
        rw [pow_succ] at hlt
        exact hlt
      obtain ⟨iv, iok, ic⟩ := ih (y / base) hqpos hqlt
      rw [hmod, hdiv]
      refine ⟨?_, ?_, ?_, ?_⟩
      · rw [val_cons, iv]
        exact Int.emod_add_ediv y base
      · intro z hz
        rcases List.mem_cons.mp hz with h | h
        · subst h
          exact ⟨hmodlb, hmodub⟩
        · exact iok z h
      · simp
      · intro h
        exfalso
        rcases List.exists_cons_of_ne_nil ic.1 with ⟨w, ws, hws⟩
        rw [hws, List.getLast?_cons_cons] at h
        have h1 := ic.2 (by rw [hws]; exact h)
        rw [h1] at iv
        simp [val_cons, val_nil] at iv
        omega

theorem wrap64_id {z : Int} (h1 : 0 ≤ z) (h2 : z < 2 ^ 63) : wrap64 z = z := by
  unfold wrap64
  have e1 : (2 : Int) ^ 63 = 9223372036854775808 := by norm_num
  have e2 : (2 : Int) ^ 64 = 18446744073709551616 := by norm_num
  rw [e1, e2]
  rw [e1] at h2
  omega

theorem ofInt64_spec {x : Int} (h1 : -(2 ^ 63) < x) (h2 : x < 2 ^ 63) :
    Inv (ofInt64 x) ∧ toInt (ofInt64 x) = x := by
  by_cases hz : x = 0
  · subst hz
    exact ⟨by decide, by decide⟩
  have hb3 : (2 : Int) ^ 63 < base ^ 3 := by norm_num [base]
  simp only [ofInt64]
  by_cases hx0 : x < 0
  · rw [if_pos hx0]
    have hw : wrap64 (-x) = -x := wrap64_id (by omega) (by omega)
    rw [hw, if_neg (show ¬(-x = 0) by omega)]
    obtain ⟨iv, iok, ic⟩ := i64limbsF_spec 3 (-x) (by omega) (by omega)
    have hs : decide (0 ≤ x) = false := decide_eq_false (by omega)
    rw [hs]
    refine ⟨⟨iok, ic, ?_⟩, ?_⟩
    · intro hcon
      have hcon2 : i64limbsF 3 (-x) = [0] := hcon
      rw [hcon2] at iv
      simp [val_cons, val_nil] at iv
      exfalso
      omega
    · show toInt ⟨i64limbsF 3 (-x), false⟩ = x
      unfold toInt
      simp only [Bool.false_eq_true, if_false]
      rw [iv]
      ring
  · rw [if_neg hx0, if_neg hz]
    obtain ⟨iv, iok, ic⟩ := i64limbsF_spec 3 x (by omega) (by omega)
    have hs : decide (0 ≤ x) = true := decide_eq_true (by omega)
    rw [hs]
    refine ⟨⟨iok, ic, fun _ => rfl⟩, ?_⟩
    show toInt ⟨i64limbsF 3 x, true⟩ = x
    unfold toInt
    simp only [if_true]
    exact iv

theorem int64_round_trip {x : Int} (h1 : -(2 ^ 63) < x) (h2 : x < 2 ^ 63) :
    toInt64 (ofInt64 x) = Except.ok x := by
  obtain ⟨hinv, hval⟩ := ofInt64_spec h1 h2
  rw [toInt64_spec hinv, hval, if_pos (by omega)]

/-! ### The string constructor accepts canonical strings -/

theorem valid_string_of_digits {c : Char} {t : List Char} (hc : '0' ≤ c ∧ c ≤ '9')
    (ht : ∀ d ∈ t, '0' ≤ d ∧ d ≤ '9') : valid_string (c :: t) = true := by
  show (if c ≠ '-' ∧ ('9' < c ∨ c < '0') then false
    else t.all fun d => decide ('0' ≤ d ∧ d ≤ '9')) = true
  rw [if_neg ?_]
  · rw [List.all_eq_true]
    intro d hd
    exact decide_eq_true (ht d hd)
  · intro hcon
    rcases hcon.2 with h | h
    · have h1 : ('9' : Char).toNat < c.toNat := h
      have h2 : c.toNat ≤ ('9' : Char).toNat := hc.2
      omega
    · have h1 : c.toNat < ('0' : Char).toNat := h
      have h2 : ('0' : Char).toNat ≤ c.toNat := hc.1
      omega

theorem valid_string_neg (rest : List Char) (ht : ∀ d ∈ rest, '0' ≤ d ∧ d ≤ '9') :
    valid_string ('-' :: rest) = true := by
  show (if '-' ≠ '-' ∧ ('9' < '-' ∨ '-' < '0') then false
    else rest.all fun d => decide ('0' ≤ d ∧ d ≤ '9')) = true
  rw [if_neg (fun hcon => hcon.1 rfl)]
  rw [List.all_eq_true]
  intro d hd
  exact decide_eq_true (ht d hd)

theorem parseOk_not_neg {c : Char} (t : List Char) (h : c ≠ '-') :
    parseOk (c :: t) = ⟨parseLimbsF (c :: t).length (c :: t).reverse, true⟩ := by
  unfold parseOk
  split
  · rename_i heq
    exact absurd (List.head_eq_of_cons_eq heq) h
  · rfl

/-! ### The claims -/

/-- C1: for every invariant-respecting BigInteger `a` and every non-zero
`d`, the division and modulo computations of `operator/=` and `operator%=`
satisfy `a = (a/d)*d + (a%d)` and `|a%d| < |d|` (the modulo value being the
one derived as `a - (a/d)*d`). -/
theorem div_mod_euclidean {a d : BigInt} (ha : Inv a) (hd : Inv d)
    (hz : toInt d ≠ 0) :
    toInt (divNZ a d) * toInt d + toInt (modNZ a d) = toInt a ∧
    |toInt (modNZ a d)| < |toInt d| := by
  have hnum : d.num ≠ [0] := fun hcon =>
    hz ((isZero_iff hd).mp (by simp [isZero, hcon]))
  obtain ⟨_, hq⟩ := divNZ_spec ha hd hnum
  obtain ⟨_, hm⟩ := modNZ_spec ha hd hnum
  rw [hq, hm]
  refine ⟨?_, abs_tmod_lt hz⟩
  rw [Int.tmod_def]
  ring

theorem div_mod_euclidean_witness :
    Inv (ofInt64 (-7)) ∧ Inv (ofInt64 3) ∧ toInt (ofInt64 3) ≠ 0 ∧
    (toInt (divNZ (ofInt64 (-7)) (ofInt64 3)) * toInt (ofInt64 3) +
        toInt (modNZ (ofInt64 (-7)) (ofInt64 3)) = toInt (ofInt64 (-7)) ∧
      |toInt (modNZ (ofInt64 (-7)) (ofInt64 3))| < |toInt (ofInt64 3)|) :=
  ⟨by decide, by decide, by decide,
    div_mod_euclidean (by decide) (by decide) (by decide)⟩

/-- C2: `karatsuba` returns exactly the same BigInteger as
`classic_multiply` on every pair of invariant-respecting operands, and that
value is the exact integer product; its sign is non-negative iff the
operand signs are equal or the product is zero — the claim's sign clause
without the zero case fails, see `karatsuba_sign_zero_cx`. -/
theorem karatsuba_matches_classic {a b : BigInt} (ha : Inv a) (hb : Inv b) :
    karatsuba a b = classic_multiply a b ∧
    toInt (karatsuba a b) = toInt a * toInt b ∧
    ((karatsuba a b).sign = true ↔
      (a.sign = b.sign ∨ toInt a * toInt b = 0)) := by
  obtain ⟨hkinv, hkval⟩ := karatsuba_spec ha hb
  refine ⟨karatsuba_eq_classic_aux ha hb, hkval, ?_⟩
  rcases lt_trichotomy (toInt a * toInt b) 0 with hlt | heq | hgt
  · have hky : toInt (karatsuba a b) < 0 := by rw [hkval]; exact hlt
    have hsf : (karatsuba a b).sign = false := by
      cases hsk : (karatsuba a b).sign
      · rfl
      · exfalso
        rw [inv_sign_true_toInt hsk] at hky
        exact absurd hky (not_lt.mpr (val_num_nonneg hkinv))
    rw [hsf]
    constructor
    · intro hcon
      exact absurd hcon (by simp)
    · intro hor
      exfalso
      rcases hor with hsame | hzero
      · have hprod : 0 ≤ toInt a * toInt b := by
          cases hsa : a.sign
          · have hsbb : b.sign = false := by rw [← hsame, hsa]
            obtain ⟨hva, hta⟩ := inv_sign_false_val_pos ha hsa
            obtain ⟨hvb, htb⟩ := inv_sign_false_val_pos hb hsbb
            rw [hta, htb]
            nlinarith [mul_nonneg (le_of_lt hva) (le_of_lt hvb)]
          · have hsbb : b.sign = true := by rw [← hsame, hsa]
            rw [inv_sign_true_toInt hsa, inv_sign_true_toInt hsbb]
            exact mul_nonneg (val_num_nonneg ha) (val_num_nonneg hb)
        omega
      · omega
  · have hk0 : toInt (karatsuba a b) = 0 := by rw [hkval, heq]
    have hz : isZero (karatsuba a b) = true := (isZero_iff hkinv).mpr hk0
    have hnum : (karatsuba a b).num = [0] := by simpa [isZero] using hz
    rw [hkinv.2.2 hnum]
    exact ⟨fun _ => Or.inr heq, fun _ => rfl⟩
  · have hsk : (karatsuba a b).sign = true :=
      sign_true_of_nonneg hkinv (by rw [hkval]; omega)
    rw [hsk]
    refine ⟨fun _ => Or.inl ?_, fun _ => rfl⟩
    cases hsa : a.sign <;> cases hsb2 : b.sign
    · rfl
    · exfalso
      obtain ⟨hva, hta⟩ := inv_sign_false_val_pos ha hsa
      have htb := inv_sign_true_toInt hsb2
      have hvb := val_num_nonneg hb
      rw [hta, htb] at hgt
      nlinarith
    · exfalso
      have hta := inv_sign_true_toInt hsa
      obtain ⟨hvb, htb⟩ := inv_sign_false_val_pos hb hsb2
      have hva := val_num_nonneg ha
      rw [hta, htb] at hgt
      nlinarith
    · rfl

theorem karatsuba_matches_classic_witness :
    Inv (ofInt64 (-4)) ∧ Inv (ofInt64 6) ∧
    (karatsuba (ofInt64 (-4)) (ofInt64 6) =
        classic_multiply (ofInt64 (-4)) (ofInt64 6) ∧
      toInt (karatsuba (ofInt64 (-4)) (ofInt64 6)) =
        toInt (ofInt64 (-4)) * toInt (ofInt64 6) ∧
      ((karatsuba (ofInt64 (-4)) (ofInt64 6)).sign = true ↔
        ((ofInt64 (-4)).sign = (ofInt64 6).sign ∨
          toInt (ofInt64 (-4)) * toInt (ofInt64 6) = 0))) :=
  ⟨by decide, by decide, karatsuba_matches_classic (by decide) (by decide)⟩

/-- The sign clause of the multiplication claim fails on a zero product:
`0 * (-5)` has a non-negative result sign although the operand signs
differ (normalization forces the sign of zero to `true`). -/
theorem karatsuba_sign_zero_cx :
    (karatsuba (ofInt64 0) (ofInt64 (-5))).sign = true ∧
    (ofInt64 0).sign ≠ (ofInt64 (-5)).sign := by decide

/-- C3: the claimed representation invariant is violated by a public
constructor: the string `"-0"` passes `valid_string` and the constructor
produces the limb vector `[0]` with `sign = false`, a negative zero the
invariant forbids (the constructor never normalizes). -/
theorem neg_zero_invariant_bug :
    valid_string ['-', '0'] = true ∧
    fromString ['-', '0'] = Except.ok ⟨[0], false⟩ ∧
    ¬ Inv (⟨[0], false⟩ : BigInt) :=
  ⟨by decide, rfl, by decide⟩

/-- C4: `valid_string` does not match the claimed grammar: the lone sign
`"-"` is accepted although the grammar demands at least one digit, and the
constructor then builds a value with an empty limb vector instead of
failing with `InvalidFormat`. -/
theorem lone_minus_accepted_bug :
    valid_string ['-'] = true ∧ specGrammar ['-'] = false ∧
    fromString ['-'] = Except.ok ⟨[], false⟩ :=
  ⟨by decide, by decide, rfl⟩

/-- C5: `operator/=` and `operator%=` fail with `DivisionByZero` exactly
when the divisor's value is zero, leave the receiver unchanged on that
failure, and report no error on a non-zero divisor (the embedding is pure,
so the non-mutated divisor operand is untouched by construction). -/
theorem divmod_zero_divisor_behavior {a d : BigInt} (hd : Inv d) :
    ((divAssign a d).2 = some BErr.divisionByZero ↔ toInt d = 0) ∧
    ((modAssign a d).2 = some BErr.divisionByZero ↔ toInt d = 0) ∧
    (toInt d = 0 → (divAssign a d).1 = a ∧ (modAssign a d).1 = a) ∧
    (toInt d ≠ 0 → (divAssign a d).2 = none ∧ (modAssign a d).2 = none) := by
  obtain ⟨hdiv1, hdiv2⟩ := divAssign_err a d
  obtain ⟨hmod1, hmod2⟩ := modAssign_err a d
  rw [isZero_iff hd] at hdiv1 hmod1
  refine ⟨hdiv1, hmod1, ?_, ?_⟩
  · intro h0
    have hz : isZero d = true := (isZero_iff hd).mpr h0
    exact ⟨hdiv2 hz, hmod2 hz⟩
  · intro hnz
    have hz : isZero d = false := by
      cases hzc : isZero d
      · rfl
      · exact absurd ((isZero_iff hd).mp hzc) hnz
    exact ⟨by simp [divAssign, hz], by simp [modAssign, hz]⟩

theorem divmod_zero_divisor_witness :
    Inv (ofInt64 0) ∧
    (((divAssign (ofInt64 5) (ofInt64 0)).2 = some BErr.divisionByZero ↔
        toInt (ofInt64 0) = 0) ∧
      ((modAssign (ofInt64 5) (ofInt64 0)).2 = some BErr.divisionByZero ↔
        toInt (ofInt64 0) = 0) ∧
      (toInt (ofInt64 0) = 0 → (divAssign (ofInt64 5) (ofInt64 0)).1 = ofInt64 5 ∧
        (modAssign (ofInt64 5) (ofInt64 0)).1 = ofInt64 5) ∧
      (toInt (ofInt64 0) ≠ 0 → (divAssign (ofInt64 5) (ofInt64 0)).2 = none ∧
        (modAssign (ofInt64 5) (ofInt64 0)).2 = none)) :=
  ⟨by decide, divmod_zero_divisor_behavior (by decide)⟩

/-- C6: parsing any canonical decimal string (optional leading `'-'`, no
leading zeros unless the value is the single digit `0`, and not `"-0"`)
with the string constructor and rendering the result with `to_string`
yields the original string. -/
theorem decimal_round_trip {s : List Char} (h : CanonDecStr s) :
    ∃ b, fromString s = Except.ok b ∧ to_string b = s := by
  unfold CanonDecStr at h
  by_cases hneg : s.headD ' ' = '-'
  · rw [if_pos hneg] at h
    rcases s with _ | ⟨c, rest⟩
    · exact absurd hneg (by decide)
    have hc : c = '-' := by simpa using hneg
    subst hc
    simp only [List.tail_cons] at h
    obtain ⟨hcd, _⟩ := h
    obtain ⟨_, _, _, _, hrender⟩ :=
      parse_render_core rest.length rest rest.length le_rfl le_rfl hcd
    refine ⟨⟨parseLimbsF rest.length rest.reverse, false⟩, ?_, ?_⟩
    · unfold fromString
      rw [if_pos (valid_string_neg rest hcd.1)]
      rfl
    · show '-' :: renderLimbsMS (parseLimbsF rest.length rest.reverse).reverse =
        '-' :: rest
      rw [hrender]
  · rw [if_neg hneg] at h
    rcases s with _ | ⟨c, t⟩
    · exact absurd rfl h.2.1
    have hc : '0' ≤ c ∧ c ≤ '9' := h.1 c (List.mem_cons_self _ _)
    have hcne : c ≠ '-' := by
      intro hcon
      subst hcon
      exact hneg (by simp)
    obtain ⟨_, _, _, _, hrender⟩ :=
      parse_render_core (c :: t).length (c :: t) (c :: t).length le_rfl le_rfl h
    refine ⟨⟨parseLimbsF (c :: t).length (c :: t).reverse, true⟩, ?_, ?_⟩
    · unfold fromString
      rw [if_pos (valid_string_of_digits hc
          (fun d hd => h.1 d (List.mem_cons_of_mem _ hd))),
        parseOk_not_neg t hcne]
    · show renderLimbsMS (parseLimbsF (c :: t).length (c :: t).reverse).reverse = c :: t
      exact hrender

theorem decimal_round_trip_witness :
    CanonDecStr ['-', '1', '2', '3', '4', '5', '6', '7', '8', '9', '0',
      '1', '2', '3', '4', '5', '6', '7', '8', '9', '0'] ∧
    ∃ b, fromString ['-', '1', '2', '3', '4', '5', '6', '7', '8', '9', '0',
        '1', '2', '3', '4', '5', '6', '7', '8', '9', '0'] = Except.ok b ∧
      to_string b = ['-', '1', '2', '3', '4', '5', '6', '7', '8', '9', '0',
        '1', '2', '3', '4', '5', '6', '7', '8', '9', '0'] :=
  ⟨by decide, decimal_round_trip (by decide)⟩

/-- C7: the comparison operators are trichotomous on invariant-respecting
values: exactly one of `a < b`, `a == b`, `a > b` returns `true`. -/
theorem comparison_trichotomy {a b : BigInt} (ha : Inv a) (hb : Inv b) :
    (ltB a b = true ∧ eqB a b = false ∧ gtB a b = false) ∨
    (ltB a b = false ∧ eqB a b = true ∧ gtB a b = false) ∨
    (ltB a b = false ∧ eqB a b = false ∧ gtB a b = true) := by
  have hl := ltB_iff ha hb
  have he := eqB_iff ha hb
  have hg := gtB_iff ha hb
  rcases lt_trichotomy (toInt a) (toInt b) with h | h | h
  · refine Or.inl ⟨hl.mpr h, ?_, ?_⟩
    · cases hc : eqB a b
      · rfl
      · exact absurd (he.mp hc) (by omega)
    · cases hc : gtB a b
      · rfl
      · exact absurd (hg.mp hc) (by omega)
  · refine Or.inr (Or.inl ⟨?_, he.mpr h, ?_⟩)
    · cases hc : ltB a b
      · rfl
      · exact absurd (hl.mp hc) (by omega)
    · cases hc : gtB a b
      · rfl
      · exact absurd (hg.mp hc) (by omega)
  · refine Or.inr (Or.inr ⟨?_, ?_, hg.mpr h⟩)
    · cases hc : ltB a b
      · rfl
      · exact absurd (hl.mp hc) (by omega)
    · cases hc : eqB a b
      · rfl
      · exact absurd (he.mp hc) (by omega)

theorem comparison_trichotomy_witness :
    Inv (ofInt64 1) ∧ Inv (ofInt64 2) ∧
    ((ltB (ofInt64 1) (ofInt64 2) = true ∧ eqB (ofInt64 1) (ofInt64 2) = false ∧
        gtB (ofInt64 1) (ofInt64 2) = false) ∨
      (ltB (ofInt64 1) (ofInt64 2) = false ∧ eqB (ofInt64 1) (ofInt64 2) = true ∧
        gtB (ofInt64 1) (ofInt64 2) = false) ∨
      (ltB (ofInt64 1) (ofInt64 2) = false ∧ eqB (ofInt64 1) (ofInt64 2) = false ∧
        gtB (ofInt64 1) (ofInt64 2) = true)) :=
  ⟨by decide, by decide, comparison_trichotomy (by decide) (by decide)⟩

/-- C8: for every invariant-respecting value and non-negative shift count
`k`, `operator<<` multiplies the value by 2 exactly `k` times (hence by
`2 ^ k`), and `operator>>` divides it by 2 exactly `k` times with the
type's truncating division. -/
theorem shift_repeated_double_halve {v : BigInt} {k : Int} (hv : Inv v)
    (hk : 0 ≤ k) :
    toInt (shlB v k) = (fun a => a * 2)^[k.toNat] (toInt v) ∧
    toInt (shlB v k) = toInt v * 2 ^ k.toNat ∧
    toInt (shrB v k) = (fun a => Int.tdiv a 2)^[k.toNat] (toInt v) := by
  obtain ⟨_, hshl⟩ := shlB_spec hv hk
  obtain ⟨_, hshr⟩ := shrB_spec hv hk
  exact ⟨hshl, by rw [hshl, iterate_mul2], hshr⟩

theorem shift_repeated_double_halve_witness :
    Inv (ofInt64 (-5)) ∧ (0 : Int) ≤ 3 ∧
    (toInt (shlB (ofInt64 (-5)) 3) =
        (fun a => a * 2)^[(3 : Int).toNat] (toInt (ofInt64 (-5))) ∧
      toInt (shlB (ofInt64 (-5)) 3) = toInt (ofInt64 (-5)) * 2 ^ (3 : Int).toNat ∧
      toInt (shrB (ofInt64 (-5)) 3) =
        (fun a => Int.tdiv a 2)^[(3 : Int).toNat] (toInt (ofInt64 (-5)))) :=
  ⟨by decide, by decide, shift_repeated_double_halve (by decide) (by decide)⟩

/-- C9: narrowing an invariant-respecting BigInteger to `int64_t` returns
the value exactly when it lies in the `int64_t` range, and fails with
`Overflow` exactly when it lies outside that range. -/
theorem narrowing_int64_iff {b : BigInt} (hb : Inv b) :
    (toInt64 b = Except.ok (toInt b) ↔
      -(2 ^ 63) ≤ toInt b ∧ toInt b ≤ 2 ^ 63 - 1) ∧
    (toInt64 b = Except.error BErr.overflow ↔
      (toInt b < -(2 ^ 63) ∨ 2 ^ 63 - 1 < toInt b)) := by
  rw [toInt64_spec hb]
  by_cases hr : -(2 ^ 63) ≤ toInt b ∧ toInt b ≤ 2 ^ 63 - 1
  · rw [if_pos hr]
    refine ⟨⟨fun _ => hr, fun _ => rfl⟩, ⟨fun hcon => (nomatch hcon), fun hor => ?_⟩⟩
    rcases hor with h | h
    · exact absurd hr.1 (not_le.mpr h)
    · exact absurd hr.2 (not_le.mpr h)
  · rw [if_neg hr]
    have hor : toInt b < -(2 ^ 63) ∨ 2 ^ 63 - 1 < toInt b := by
      rcases not_and_or.mp hr with h | h
      · exact Or.inl (not_le.mp h)
      · exact Or.inr (not_le.mp h)
    exact ⟨⟨fun hcon => (nomatch hcon), fun hand => absurd hand hr⟩,
      ⟨fun _ => hor, fun _ => rfl⟩⟩

theorem narrowing_int64_witness :
    Inv (ofInt64 42) ∧
    ((toInt64 (ofInt64 42) = Except.ok (toInt (ofInt64 42)) ↔
        -(2 ^ 63) ≤ toInt (ofInt64 42) ∧ toInt (ofInt64 42) ≤ 2 ^ 63 - 1) ∧
      (toInt64 (ofInt64 42) = Except.error BErr.overflow ↔
        (toInt (ofInt64 42) < -(2 ^ 63) ∨ 2 ^ 63 - 1 < toInt (ofInt64 42)))) :=
  ⟨by decide, narrowing_int64_iff (by decide)⟩

/-- C10: the `int64_t` round trip fails at `INT64_MIN = -2^63`: the
constructor's internal negation wraps around, the limb-peeling loop never
runs, the result is an (invariant-violating) empty limb vector, and the
narrowing conversion then reports `Overflow` instead of returning the
value. -/
theorem int64_min_round_trip_bug :
    ofInt64 (-9223372036854775808) = ⟨[], false⟩ ∧
    ¬ Inv (ofInt64 (-9223372036854775808)) ∧
    toInt64 (ofInt64 (-9223372036854775808)) = Except.error BErr.overflow :=
  ⟨by decide, by decide, rfl⟩

end BigInt
